import Mathlib

/-!
Verification of the maximal-chain / chain-path code (`partition.py`, `chain_paths.py`).

A `Partition` is either the trivial partition of `{1..n}` or a `Split` of a parent
partition (one part `before` divided into `left` and `right`), exactly as in the
source: `Split` stores its fields verbatim and `parts()` is derived lazily from the
parent's part list.  Chains are lists of partitions; `ChainPath` carries the two
growing paths and the set of picked pairs of the path-finding algorithm.

Machine integers of the source are plain `ℕ`/`ℤ` here (no overflow is possible in
the source: Python integers are unbounded).  Python errors (IndexError,
StopIteration, failed assert) are modelled with `Option` where a claim is about
them; functions only ever applied to well-formed data in the claims are made total
with innocuous defaults, noted at each definition.
-/

set_option maxHeartbeats 1000000

/-- A part of a partition: `frozenset` of integers in the source. -/
abbrev PartSet : Type := Finset ℕ

/-- The partition objects of the source: `TrivialPartition(n)` or
`Split(parent, before, left, right)`.  A `Split` stores exactly its four
constructor arguments (`Split.__init__` only assigns the fields). -/
inductive Partition : Type where
  | trivial (n : ℕ)
  | split (parent : Partition) (before left right : PartSet)
deriving DecidableEq

namespace Partition

/-- `parts.index(b)` replacement step of `Split.parts`: replace the first
occurrence of `b` by `x`.  (Python raises ValueError when `b` is absent; in that
case this model leaves the list unchanged — the situation never arises for the
chains of the claims, where `before` is always a part of the parent.) -/
def replaceFirst : List PartSet → PartSet → PartSet → List PartSet
  | [], _, _ => []
  | p :: ps, b, x => if p = b then x :: ps else p :: replaceFirst ps b x

/-- `parts()`: the trivial partition stores `[frozenset(range(1, n+1))]`; a split
takes the parent's parts, replaces `before` by `left` and appends `right`. -/
def parts : Partition → List PartSet
  | .trivial n => [Finset.Icc 1 n]
  | .split parent before left right => replaceFirst parent.parts before left ++ [right]

/-- `len(partition)`: the number of elements of the underlying set. -/
def len : Partition → ℕ
  | .trivial n => n
  | .split parent _ _ _ => parent.len

/-- `splits(i, j)`: whether this split separates `i` and `j`
(`TrivialPartition.splits` returns `False`). -/
def splits : Partition → ℕ → ℕ → Bool
  | .trivial _, _, _ => false
  | .split _ _ left right, i, j =>
      decide ((i ∈ left ∧ j ∈ right) ∨ (j ∈ left ∧ i ∈ right))

/-- Python's `frozenset(self.parts())`: partition equality compares this. -/
def partsSet (p : Partition) : Finset PartSet := p.parts.toFinset

/-- Attribute access `p.parent` (defined on `Split` objects only; the default for
the trivial partition is never reached by the code paths of the claims). -/
def parentD : Partition → Partition
  | .trivial n => .trivial n
  | .split parent _ _ _ => parent

/-- Attribute access `p.before` (Split only; default never reached in the claims). -/
def beforeD : Partition → PartSet
  | .trivial _ => ∅
  | .split _ before _ _ => before

/-- Attribute access `p.left` (Split only; default never reached in the claims). -/
def leftD : Partition → PartSet
  | .trivial _ => ∅
  | .split _ _ left _ => left

/-- Attribute access `p.right` (Split only; default never reached in the claims). -/
def rightD : Partition → PartSet
  | .trivial _ => ∅
  | .split _ _ _ right => right

/-- `Partition.__eq__`: structural equality by set of parts. -/
def peq (p q : Partition) : Bool := decide (p.partsSet = q.partsSet)

end Partition

/-- `Split.from_side(parent, before, left)`: computes `right = before - left`. -/
def Split.from_side (parent : Partition) (before left : PartSet) : Partition :=
  Partition.split parent before left (before \ left)

/-- A maximal chain: the source's `Chain` subclasses `list`. -/
abbrev Chain : Type := List Partition

namespace Chain

/-- Indexing `c[d]` (for the in-range indices used by the claims; Python raises
IndexError out of range, the model returns a junk partition there). -/
def entry (c : Chain) (d : ℕ) : Partition := c.getD d (Partition.trivial 0)

/-- `split_depth(i, j)` as a partial query:
`next(d for d, split in enumerate(self) if split.splits(i, j))`, i.e. the first
index whose split separates `i` and `j`; `none` models the StopIteration error
raised when no entry separates them. -/
def splitDepth? : Chain → ℕ → ℕ → Option ℕ
  | [], _, _ => none
  | p :: rest, i, j =>
      if p.splits i j then some 0 else (splitDepth? rest i j).map (· + 1)

/-- Total version of `split_depth` used inside the search loop (where, on the
well-formed chains the algorithm manipulates, the depth always exists; the
default `c.length` is never reached there). -/
def split_depth (c : Chain) (i j : ℕ) : ℕ := (c.splitDepth? i j).getD c.length

/-- `Chain.__swapped(split1, split2, i, j)`, translated clause by clause. -/
def swapped (split1 split2 : Partition) (i j : ℕ) : Partition × Partition :=
  if split2.beforeD = split1.leftD ∨ split2.beforeD = split1.rightD then
    -- dependent case: split2 divides a part that split1 freshly created
    let uninvolved :=
      if i ∉ split2.leftD ∧ j ∉ split2.leftD then split2.leftD else split2.rightD
    let ret1 := Split.from_side split1.parentD split1.beforeD uninvolved
    let unsplit_side :=
      if split1.leftD ≠ split2.beforeD then split1.leftD else split1.rightD
    let ret2 := Split.from_side ret1 ret1.rightD unsplit_side
    (ret1, ret2)
  else
    -- independent case: the two split events commute, swap their order
    let ret1 := Partition.split split1.parentD split2.beforeD split2.leftD split2.rightD
    let ret2 := Partition.split ret1 split1.beforeD split1.leftD split1.rightD
    (ret1, ret2)

/-- `pushed_down(d, i, j)`: copy of the chain with the slice `[d:d+2]` replaced by
the swapped pair (Python slice-assignment semantics: `take`/`drop` clamp). -/
def pushed_down (c : Chain) (d i j : ℕ) : Chain :=
  let pr := swapped (c.entry d) (c.entry (d+1)) i j
  c.take d ++ [pr.1, pr.2] ++ c.drop (d+2)

/-- `min_dist_lb(n)`: `(n-2)*(n-1)/2` on Python integers.  Modelled on `ℤ`;
Python's floor division agrees with `Int` division here because the product of
two consecutive integers is non-negative and even. -/
def min_dist_lb (n : ℤ) : ℤ := (n - 2) * (n - 1) / 2

end Chain

/-- Structural equality of chains: `list.__eq__` with `Partition.__eq__`
elementwise (used by the convergence assert of `find`). -/
def chainEqB (c d : Chain) : Bool :=
  c.length == d.length && (c.zip d).all fun pq => pq.1.peq pq.2

/-- The `ChainPath` object: the two input chains, the two growing paths and the
set of already-picked pairs. -/
structure ChainPath : Type where
  chain1 : Chain
  chain2 : Chain
  path1 : List Chain
  path2 : List Chain
  picked : List (ℕ × ℕ)
deriving DecidableEq

namespace ChainPath

/-- `ChainPath.__init__`: single-element paths holding the two input chains
(`picked` is created by `find`; before `find` runs it is empty here). -/
def init (c1 c2 : Chain) : ChainPath := ⟨c1, c2, [c1], [c2], []⟩

/-- `path()`: `itertools.chain(path1, reversed(path2[:-1]))` as a list. -/
def path (cp : ChainPath) : List Chain := cp.path1 ++ cp.path2.dropLast.reverse

/-- `path[-1]` of a working path (paths are never empty). -/
def lastChain (p : List Chain) : Chain := p.getLastD []

/-- `itertools.combinations(range(1, n+1), 2)`: all pairs `1 ≤ i < j ≤ n` in
lexicographic order. -/
def allPairs (n : ℕ) : List (ℕ × ℕ) :=
  (List.range' 1 n).flatMap fun i => (List.range' (i+1) (n - i)).map fun j => (i, j)

/-- Lexicographic comparison of the `(2n - d1 - d2, i, j)` tuples, as Python
compares tuples. -/
def tripLe (a b : ℕ × ℕ × ℕ) : Bool :=
  decide (a.1 < b.1 ∨ (a.1 = b.1 ∧ (a.2.1 < b.2.1 ∨ (a.2.1 = b.2.1 ∧ a.2.2 ≤ b.2.2))))

/-- Binary `min` on tuples: Python's `min` keeps the earlier of equals. -/
def tripMin (a b : ℕ × ℕ × ℕ) : ℕ × ℕ × ℕ := if tripLe a b then a else b

/-- `__next_i_j(d)`: enumerate unpicked pairs with their split depths in the two
last chains, keep those split below `d` somewhere, and take the `min` of the
`(2n - d1 - d2, i, j)` tuples; `none` models the ValueError of `min` on an empty
sequence. -/
def next_i_j (cp : ChainPath) (d : ℕ) : Option (ℕ × ℕ) :=
  let n := cp.chain1.length
  let quads := (allPairs n).filterMap fun p =>
    if (p.1, p.2) ∈ cp.picked then none else
    let d1 := (lastChain cp.path1).split_depth p.1 p.2
    let d2 := (lastChain cp.path2).split_depth p.1 p.2
    if d1 < d ∨ d2 < d then some (2*n - d1 - d2, p.1, p.2) else none
  match quads with
  | [] => none
  | q :: qs => some (qs.foldl tripMin q).2

/-- `__push_down(path, end_depth, i, j)`: push the pair from its current depth in
the path's last chain up to `end_depth`, appending each intermediate chain. -/
def push_down (path : List Chain) (end_depth i j : ℕ) : List Chain :=
  let start_depth := (lastChain path).split_depth i j
  (List.range' start_depth (end_depth - start_depth)).foldl
    (fun p depth => p ++ [(lastChain p).pushed_down depth i j]) path

/-- The body of `find`'s loop over the list of remaining target depths;
an empty `next_i_j` result breaks out of the whole loop. -/
def findGo : ChainPath → List ℕ → ChainPath
  | cp, [] => cp
  | cp, d :: ds =>
    match cp.next_i_j d with
    | none => cp
    | some (i, j) =>
        findGo { cp with
                  path1 := push_down cp.path1 d i j,
                  path2 := push_down cp.path2 d i j,
                  picked := (i, j) :: cp.picked } ds

/-- `find()`: reset `picked`, loop `d` over `xrange(n-1, -1, -1)`.  The final
state carries the two paths; the convergence assert is `converged` below. -/
def find (cp : ChainPath) : ChainPath :=
  findGo { cp with picked := [] } (List.range cp.chain1.length).reverse

/-- The convergence assertion of `find`: `path1[-1] == path2[-1]`. -/
def converged (cp : ChainPath) : Bool := chainEqB (lastChain cp.path1) (lastChain cp.path2)

end ChainPath

/-! ## Well-formedness of chains -/

/-- `S` is a partition of `{1..n}` into disjoint nonempty parts. -/
def PartitionOf (S : Finset PartSet) (n : ℕ) : Prop :=
  (∀ p ∈ S, p ≠ ∅) ∧ (∀ p ∈ S, ∀ q ∈ S, p ≠ q → Disjoint p q) ∧
  S.biUnion id = Finset.Icc 1 n

instance (S : Finset PartSet) (n : ℕ) : Decidable (PartitionOf S n) := by
  unfold PartitionOf; infer_instance

/-- A part list as the code produces it: no duplicates, and its set of parts is a
partition of `{1..n}`. -/
def PartsValid (l : List PartSet) (n : ℕ) : Prop := l.Nodup ∧ PartitionOf l.toFinset n

instance (l : List PartSet) (n : ℕ) : Decidable (PartsValid l n) := by
  unfold PartsValid; infer_instance

/-- The well-formedness of one chain entry `e` after the entry `prev`: `e` is a
`Split` whose parent part list is a valid partition structurally equal to `prev`,
and which divides one part of it into two disjoint nonempty sides. -/
def EntryOk (n : ℕ) (prev e : Partition) : Prop :=
  match e with
  | .trivial _ => False
  | .split parent b l r =>
      PartsValid parent.parts n ∧ parent.partsSet = prev.partsSet ∧
      b ∈ parent.parts ∧ l ≠ ∅ ∧ r ≠ ∅ ∧ Disjoint l r ∧ l ∪ r = b

instance (n : ℕ) (prev : Partition) : (e : Partition) → Decidable (EntryOk n prev e)
  | .trivial _ => isFalse (fun h => h)
  | .split parent b l r => inferInstanceAs (Decidable (_ ∧ _))

/-- A well-formed maximal chain of size `n`: `n` partitions starting at the
trivial one, each later entry a valid single split of its predecessor. -/
def Chain.WF (c : Chain) (n : ℕ) : Prop :=
  c.length = n ∧ c.head? = some (Partition.trivial n) ∧
  ∀ d < c.length - 1, EntryOk n (c.entry d) (c.entry (d+1))

instance (c : Chain) (n : ℕ) : Decidable (c.WF n) := by
  unfold Chain.WF; infer_instance

/-- `i` and `j` lie in one common part of the partition at depth `d` of the chain. -/
def Chain.samePartAt (c : Chain) (d i j : ℕ) : Prop :=
  ∃ P ∈ (c.entry d).partsSet, i ∈ P ∧ j ∈ P

instance (c : Chain) (d i j : ℕ) : Decidable (c.samePartAt d i j) := by
  unfold Chain.samePartAt; infer_instance

namespace ChainPath

/-- The candidate filter of `__next_i_j`, transcribed from its generator:
unpicked pairs `1 ≤ i < j ≤ n` whose split depth in one of the two last chains
lies below the target depth `d`. -/
def qualifies (cp : ChainPath) (d : ℕ) (p : ℕ × ℕ) : Prop :=
  1 ≤ p.1 ∧ p.1 < p.2 ∧ p.2 ≤ cp.chain1.length ∧ p ∉ cp.picked ∧
  ((lastChain cp.path1).split_depth p.1 p.2 < d ∨
   (lastChain cp.path2).split_depth p.1 p.2 < d)

instance (cp : ChainPath) (d : ℕ) (p : ℕ × ℕ) : Decidable (cp.qualifies d p) := by
  unfold ChainPath.qualifies; infer_instance

/-- The `(2n - d1 - d2, i, j)` selection key of `__next_i_j`. -/
def pairKey (cp : ChainPath) (p : ℕ × ℕ) : ℕ × ℕ × ℕ :=
  (2 * cp.chain1.length - (lastChain cp.path1).split_depth p.1 p.2
     - (lastChain cp.path2).split_depth p.1 p.2, p.1, p.2)

/-- The loop invariant of `find` at the start of the iteration with target
depth `d`: the working paths are nonempty with well-formed last chains, the two
last chains agree (as partitions) from depth `d` upward, every picked pair has
the same split depth strictly above `d` in both last chains, and the paths
together already hold at least `2 + (n-1-d)` chains. -/
def Inv (cp : ChainPath) (n d : ℕ) : Prop :=
  cp.chain1.length = n ∧
  cp.path1 ≠ [] ∧ cp.path2 ≠ [] ∧
  (lastChain cp.path1).WF n ∧ (lastChain cp.path2).WF n ∧
  (∀ k, d ≤ k → k < n →
    ((lastChain cp.path1).entry k).partsSet = ((lastChain cp.path2).entry k).partsSet) ∧
  (∀ p ∈ cp.picked, ∃ e, d < e ∧ e < n ∧
    (lastChain cp.path1).splitDepth? p.1 p.2 = some e ∧
    (lastChain cp.path2).splitDepth? p.1 p.2 = some e) ∧
  2 + (n - 1 - d) ≤ cp.path1.length + cp.path2.length

end ChainPath

/-! Concrete chains used to instantiate the theorems:
`chainA3` is `123 -> 1|23 -> 1|2|3`; `chainCat4` is
`1234 -> 1|234 -> 1|2|34 -> 1|2|3|4`; `chainBal4` is
`1234 -> 12|34 -> 12|3|4 -> 1|2|3|4`. -/

def chainA3 : Chain :=
  let p0 := Partition.trivial 3
  let p1 := Partition.split p0 (Finset.Icc 1 3) {1} {2, 3}
  [p0, p1, Partition.split p1 {2, 3} {2} {3}]

def chainCat4 : Chain :=
  let p0 := Partition.trivial 4
  let p1 := Partition.split p0 (Finset.Icc 1 4) {1} {2, 3, 4}
  let p2 := Partition.split p1 {2, 3, 4} {2} {3, 4}
  [p0, p1, p2, Partition.split p2 {3, 4} {3} {4}]

def chainBal4 : Chain :=
  let p0 := Partition.trivial 4
  let p1 := Partition.split p0 (Finset.Icc 1 4) {1, 2} {3, 4}
  let p2 := Partition.split p1 {3, 4} {3} {4}
  [p0, p1, p2, Partition.split p2 {1, 2} {1} {2}]

/-! ## Strings: rendering (`Partition.__to_str`, `Chain.__repr__`) and parsing
(`Chain.from_string`)

Strings are modelled as `List Char`.  `str.split(sep)` and `sep.join(...)` are
transcribed for a nonempty separator; `int(s)` on the digit strings produced by
the renderer is `charsToNat`; `str(n)` is `natToChars` (decimal digits).
Python's iteration order over a `frozenset` is unspecified; the model fixes
the order of `list(part)` to ascending (as the source's comment "the numbers in
the parts are already sorted by the underlying set" assumes) and enumerates
part-set differences in parse order. -/

/-- Whether the first list is an initial run of the second. -/
def leadEq : List Char → List Char → Bool
  | [], _ => true
  | _ :: _, [] => false
  | a :: as, b :: bs => a == b && leadEq as bs

/-- Python `s.split(sep)` for a nonempty separator: cut at the first occurrence
of `sep` and continue on the remainder. -/
def splitOnSep (sep : List Char) : List Char → List (List Char)
  | [] => [[]]
  | ch :: rest =>
    if h : leadEq sep (ch :: rest) ∧ sep ≠ [] then
      [] :: splitOnSep sep ((ch :: rest).drop sep.length)
    else
      match splitOnSep sep rest with
      | [] => [[ch]]
      | hd :: tl => (ch :: hd) :: tl
termination_by s => s.length
decreasing_by
  · simp only [List.length_drop, List.length_cons]
    have hpos : 0 < sep.length := List.length_pos.2 h.2
    omega
  · simp only [List.length_cons]
    omega

/-- Python `sep.join(segs)`. -/
def joinSep (sep : List Char) : List (List Char) → List Char
  | [] => []
  | [x] => x
  | x :: y :: xs => x ++ sep ++ joinSep sep (y :: xs)

/-- The decimal digit character for `d < 10`. -/
def digitChar (d : ℕ) : Char := Char.ofNat (48 + d)

/-- `str(n)`: the decimal digits of `n`, most significant first. -/
def natToChars (x : ℕ) : List Char := ((Nat.digits 10 x).reverse).map digitChar

def charToDigit (ch : Char) : ℕ := ch.toNat - 48

/-- `int(s)` on a decimal digit string. -/
def charsToNat (s : List Char) : ℕ := Nat.ofDigits 10 ((s.map charToDigit).reverse)

def dotChar : Char := '.'
def barChar : Char := '|'
def arrowSep : List Char := [' ', '-', '>', ' ']

/-- Python's comparison of lists of ints (used by `sorted` on the part lists). -/
def listLeB : List ℕ → List ℕ → Bool
  | [], _ => true
  | _ :: _, [] => false
  | a :: as, b :: bs => if a < b then true else if b < a then false else listLeB as bs

namespace Partition

/-- `list(part)` in ascending order. -/
def partKey (p : PartSet) : List ℕ := p.sort (· ≤ ·)

/-- `separator.join(str(n) for n in part)` with `separator = '.'`. -/
def renderPart (key : List ℕ) : List Char := joinSep [dotChar] (key.map natToChars)

/-- `sorted(list(part) for part in self.parts())`. -/
def partitionKeys (p : Partition) : List (List ℕ) :=
  List.insertionSort (fun x y => listLeB x y = true) (p.parts.map partKey)

/-- `Partition.__repr__` = `__to_str(force_separators=True)`: parts sorted by
their sorted element lists, elements joined by `'.'`, parts joined by `'|'`. -/
def reprStr (p : Partition) : List Char :=
  joinSep [barChar] ((partitionKeys p).map renderPart)

/-- The part sets of one rendered partition in rendered order (what
`from_string` rebuilds from each ` -> ` chunk). -/
def parsedList (p : Partition) : List PartSet := (partitionKeys p).map List.toFinset

end Partition

/-- `Chain.__repr__`: partitions joined by `' -> '`. -/
def Chain.reprStr (c : Chain) : List Char := joinSep arrowSep (c.map Partition.reprStr)

/-- The reconstruction loop of `Chain.from_string`: given the previous
partition object, the previous raw partition (a list of part sets in parse
order; Python holds a `frozenset`, enumerated here in parse order) and the
remaining raw partitions, build the `Split` objects.  `before` is the first
element of the set difference `raw[idx-1] - raw[idx]` (empty difference:
`IndexError`, i.e. `none`); `left, right` unpacks `raw[idx] - raw[idx-1]` and
fails (`none`) unless that difference has exactly two elements. -/
def buildSplits : Partition → List PartSet → List (List PartSet) → Option (List Partition)
  | _, _, [] => some []
  | prev, p1, p2 :: rest =>
    match p1.dedup.filter (fun x => decide (x ∉ p2.toFinset)),
          p2.dedup.filter (fun x => decide (x ∉ p1.toFinset)) with
    | b :: _, [l, r] =>
        (buildSplits (Partition.split prev b l r) p2 rest).map
          (fun t => Partition.split prev b l r :: t)
    | _, _ => none

/-- `Chain.from_string`: split on `' -> '`, `'|'`, `'.'`, parse the ints, take
`n` from the size of a part of the first raw partition (which must exist),
rebuild the splits, and `assert repr(c) == s` (a failing assert is `none`;
so are the `IndexError`/unpacking errors of the loop, and an out-of-range
`raw_partitions[idx]` access when the string holds fewer than `n` partitions). -/
def Chain.from_string (s : List Char) : Option Chain :=
  let rawP : List (List PartSet) :=
    (splitOnSep arrowSep s).map fun pstr =>
      (splitOnSep [barChar] pstr).map fun partStr =>
        ((splitOnSep [dotChar] partStr).map charsToNat).toFinset
  match rawP with
  | [] => none
  | p0 :: restAll =>
    match p0 with
    | [] => none
    | part0 :: _ =>
      let n := part0.card
      if n ≤ (p0 :: restAll).length then
        match buildSplits (Partition.trivial n) p0 (restAll.take (n-1)) with
        | none => none
        | some tail =>
            let c : Chain := Partition.trivial n :: tail
            if Chain.reprStr c = s then some c else none
      else none

/-! ## Basic lemmas about chain indexing -/

namespace Chain

theorem entry_cons_succ (p : Partition) (c : Chain) (d : ℕ) :
    Chain.entry (p :: c) (d+1) = c.entry d := rfl

theorem entry_eq_of_get? {c : Chain} {d : ℕ} {p : Partition} (h : c.get? d = some p) :
    c.entry d = p := by
  simp only [Chain.entry, List.getD_eq_getElem?_getD, ← List.get?_eq_getElem?, h,
    Option.getD_some]

theorem entry_get? {c : Chain} {d : ℕ} (h : d < c.length) :
    c.get? d = some (c.entry d) := by
  rcases List.get?_eq_get h with h'
  simp only [Chain.entry, List.getD_eq_getElem?_getD, ← List.get?_eq_getElem?, h',
    Option.getD_some]

theorem pushed_down_length {c : Chain} {d i j : ℕ} (h : d + 2 ≤ c.length) :
    (c.pushed_down d i j).length = c.length := by
  simp [Chain.pushed_down]
  omega

theorem pushed_down_get?_lt {c : Chain} {d i j k : ℕ} (hk : k < d) (hkl : k < c.length) :
    (c.pushed_down d i j).get? k = c.get? k := by
  have h1 : k < (c.take d).length := by simp; omega
  rw [Chain.pushed_down, List.get?_eq_getElem?, List.get?_eq_getElem?]
  rw [List.getElem?_append_left (by simp; omega), List.getElem?_append_left h1,
    List.getElem?_take_of_lt hk]

theorem pushed_down_get?_ge {c : Chain} {d i j k : ℕ} (hd : d + 2 ≤ c.length)
    (hk : d + 2 ≤ k) : (c.pushed_down d i j).get? k = c.get? k := by
  have hslice : (c.take d ++ [(Chain.swapped (c.entry d) (c.entry (d+1)) i j).1,
      (Chain.swapped (c.entry d) (c.entry (d+1)) i j).2]).length = d + 2 := by
    simp; omega
  rw [Chain.pushed_down, List.get?_eq_getElem?, List.get?_eq_getElem?]
  rw [List.getElem?_append_right (by omega), hslice, List.getElem?_drop]
  congr 1
  omega

theorem pushed_down_entry_lt {c : Chain} {d i j k : ℕ} (hk : k < d) (hkl : k < c.length) :
    (c.pushed_down d i j).entry k = c.entry k := by
  simp only [Chain.entry, List.getD_eq_getElem?_getD, ← List.get?_eq_getElem?,
    pushed_down_get?_lt hk hkl]

theorem pushed_down_entry_ge {c : Chain} {d i j k : ℕ} (hd : d + 2 ≤ c.length)
    (hk : d + 2 ≤ k) : (c.pushed_down d i j).entry k = c.entry k := by
  simp only [Chain.entry, List.getD_eq_getElem?_getD, ← List.get?_eq_getElem?,
    pushed_down_get?_ge hd hk]

theorem pushed_down_entry_d {c : Chain} {d i j : ℕ} (hd : d + 2 ≤ c.length) :
    (c.pushed_down d i j).entry d = (Chain.swapped (c.entry d) (c.entry (d+1)) i j).1 := by
  have hlen : (c.take d).length = d := by simp; omega
  apply entry_eq_of_get?
  rw [Chain.pushed_down, List.get?_eq_getElem?,
    List.getElem?_append_left (by simp; omega),
    List.getElem?_append_right (by omega), hlen]
  simp

theorem pushed_down_entry_d1 {c : Chain} {d i j : ℕ} (hd : d + 2 ≤ c.length) :
    (c.pushed_down d i j).entry (d+1) = (Chain.swapped (c.entry d) (c.entry (d+1)) i j).2 := by
  have hlen : (c.take d).length = d := by simp; omega
  apply entry_eq_of_get?
  rw [Chain.pushed_down, List.get?_eq_getElem?,
    List.getElem?_append_left (by simp; omega),
    List.getElem?_append_right (by omega), hlen]
  simp

end Chain

/-! ## Claims C7, C9, C10 -/

/-- C7 counterexample: `Split.__init__` stores its arguments without any check;
the degenerate split of `{1,2}` with an empty left side is accepted at
construction time (the constructed object exists and computes `parts()`
containing an empty part) instead of failing fast. -/
theorem C7_split_no_validation_counterexample :
    (Partition.split (Partition.trivial 2) (Finset.Icc 1 2) ∅ (Finset.Icc 1 2)).leftD = ∅ ∧
    (Partition.split (Partition.trivial 2) (Finset.Icc 1 2) ∅ (Finset.Icc 1 2)).parts
      = [∅, Finset.Icc 1 2] ∧
    (Partition.split (Partition.trivial 2) (Finset.Icc 1 2) ∅ (Finset.Icc 1 2)).len = 2 := by
  refine ⟨rfl, ?_, rfl⟩
  decide

/-- C7 amended: constructing a `Split` never fails: `Split.__init__` performs no
validation and stores `parent`, `before`, `left`, `right` verbatim, for every
input including degenerate ones (`before ≠ left ⊎ right` or an empty side);
likewise `Split.from_side` only computes `right = before - left` and never
rejects its input.  Well-formedness is maintained solely by construction at the
call sites. -/
theorem C7_split_no_validation_amended (parent : Partition) (before left right : PartSet) :
    (Partition.split parent before left right).parentD = parent ∧
    (Partition.split parent before left right).beforeD = before ∧
    (Partition.split parent before left right).leftD = left ∧
    (Partition.split parent before left right).rightD = right ∧
    Split.from_side parent before left
      = Partition.split parent before left (before \ left) :=
  ⟨rfl, rfl, rfl, rfl, rfl⟩

/-- C9: `pushed_down` is pure — the original chain is untouched (purity is
intrinsic to the embedding: the function returns a new list) — and the returned
chain has the same length and holds the identical entry objects of the original
at every index outside `{d, d+1}` (structural sharing: the model's term equality
of list elements). -/
theorem C9_pushed_down_shares_entries (c : Chain) (d i j k : ℕ)
    (hd : d + 2 ≤ c.length) (hk : k < c.length) (h1 : k ≠ d) (h2 : k ≠ d + 1) :
    (c.pushed_down d i j).length = c.length ∧
    (c.pushed_down d i j).entry k = c.entry k := by
  refine ⟨Chain.pushed_down_length hd, ?_⟩
  rcases Nat.lt_or_ge k d with hlt | hge
  · exact Chain.pushed_down_entry_lt hlt hk
  · exact Chain.pushed_down_entry_ge hd (by omega)

/-- C9 witness at a concrete input. -/
theorem C9_pushed_down_shares_entries_witness :
    (chainCat4.pushed_down 1 1 2).length = chainCat4.length ∧
    (chainCat4.pushed_down 1 1 2).entry 3 = chainCat4.entry 3 :=
  C9_pushed_down_shares_entries chainCat4 1 1 2 3 (by decide) (by decide)
    (by decide) (by decide)

/-- C10: calling `path()` on a freshly constructed `ChainPath(chain1, chain2)`
(before `find()`) raises no error (it is a total function here, as in the
source, where it only concatenates iterators) and yields exactly `[chain1]`:
`path2`'s last — and only — element `chain2` is dropped by `path2[:-1]`. -/
theorem C10_path_before_find (c1 c2 : Chain) :
    (ChainPath.init c1 c2).path = [c1] := rfl

/-! ## Partition-level lemmas -/

namespace Partition

theorem mem_of_mem_replaceFirst {l : List PartSet} {b x y : PartSet}
    (h : y ∈ replaceFirst l b x) : y ∈ l ∨ y = x := by
  induction l with
  | nil => simp [replaceFirst] at h
  | cons p ps ih =>
    rw [replaceFirst] at h
    by_cases hpb : p = b
    · rw [if_pos hpb] at h
      rcases List.mem_cons.1 h with h | h
      · exact Or.inr h
      · exact Or.inl (List.mem_cons_of_mem _ h)
    · rw [if_neg hpb] at h
      rcases List.mem_cons.1 h with h | h
      · exact Or.inl (h ▸ List.mem_cons_self _ _)
      · rcases ih h with h' | h'
        · exact Or.inl (List.mem_cons_of_mem _ h')
        · exact Or.inr h'

theorem mem_replaceFirst_of_ne {l : List PartSet} {b x a : PartSet}
    (ha : a ∈ l) (hab : a ≠ b) : a ∈ replaceFirst l b x := by
  induction l with
  | nil => simp at ha
  | cons p ps ih =>
    rw [replaceFirst]
    rcases List.mem_cons.1 ha with h | h
    · have hpb : p ≠ b := fun hh => hab (h.trans hh)
      rw [if_neg hpb]
      exact h ▸ List.mem_cons_self _ _
    · by_cases hpb : p = b
      · rw [if_pos hpb]
        exact List.mem_cons_of_mem _ h
      · rw [if_neg hpb]
        exact List.mem_cons_of_mem _ (ih h)

theorem replaceFirst_toFinset {l : List PartSet} {b x : PartSet}
    (hb : b ∈ l) (hnd : l.Nodup) :
    (replaceFirst l b x).toFinset = insert x (l.toFinset.erase b) := by
  induction l with
  | nil => simp at hb
  | cons p ps ih =>
    rcases List.nodup_cons.1 hnd with ⟨hp, hps⟩
    rw [replaceFirst]
    by_cases hpb : p = b
    · rw [if_pos hpb]
      subst hpb
      have hnotin : p ∉ ps.toFinset := by simpa using hp
      simp [Finset.erase_insert hnotin]
    · rw [if_neg hpb]
      have hbps : b ∈ ps := by
        rcases List.mem_cons.1 hb with h | h
        · exact absurd h.symm hpb
        · exact h
      simp only [List.toFinset_cons, ih hbps hps]
      rw [Finset.erase_insert_of_ne hpb, Finset.Insert.comm]

theorem replaceFirst_nodup {l : List PartSet} {b x : PartSet}
    (hnd : l.Nodup) (hx : x ∉ l) : (replaceFirst l b x).Nodup := by
  induction l with
  | nil => exact List.nodup_nil
  | cons p ps ih =>
    rcases List.nodup_cons.1 hnd with ⟨hp, hps⟩
    rw [replaceFirst]
    by_cases hpb : p = b
    · simp [hpb]
      exact ⟨fun hxps => hx (List.mem_cons_of_mem _ hxps), hps⟩
    · simp [hpb]
      refine ⟨fun hmem => ?_, ih hps (fun h => hx (List.mem_cons_of_mem _ h))⟩
      rcases mem_of_mem_replaceFirst hmem with h | h
      · exact hp h
      · exact hx (by simp [h])

theorem partsSet_split {parent : Partition} {b l r : PartSet}
    (hnd : parent.parts.Nodup) (hb : b ∈ parent.parts) :
    (Partition.split parent b l r).partsSet
      = insert l (insert r (parent.partsSet.erase b)) := by
  show (replaceFirst parent.parts b l ++ [r]).toFinset = _
  rw [List.toFinset_append, replaceFirst_toFinset hb hnd]
  ext P
  simp [Partition.partsSet]
  tauto

end Partition

namespace PartitionOf

theorem mem_Icc_of_mem {S : Finset PartSet} {n : ℕ} (h : PartitionOf S n)
    {p : PartSet} {x : ℕ} (hp : p ∈ S) (hx : x ∈ p) : x ∈ Finset.Icc 1 n := by
  have := h.2.2
  rw [← this]
  exact Finset.mem_biUnion.2 ⟨p, hp, hx⟩

theorem exists_mem {S : Finset PartSet} {n : ℕ} (h : PartitionOf S n)
    {x : ℕ} (hx : x ∈ Finset.Icc 1 n) : ∃ p ∈ S, x ∈ p := by
  have := h.2.2
  rw [← this] at hx
  simpa using Finset.mem_biUnion.1 hx

theorem part_eq {S : Finset PartSet} {n : ℕ} (h : PartitionOf S n)
    {p q : PartSet} {x : ℕ} (hp : p ∈ S) (hq : q ∈ S) (hxp : x ∈ p) (hxq : x ∈ q) :
    p = q := by
  by_contra hne
  exact Finset.disjoint_left.1 (h.2.1 p hp q hq hne) hxp hxq

theorem not_mem_side {S : Finset PartSet} {n : ℕ} (h : PartitionOf S n)
    {b l : PartSet} (hb : b ∈ S) (hl : l ≠ ∅) (hsub : l ⊆ b) (hne : l ≠ b) :
    l ∉ S := by
  intro hmem
  have hd := h.2.1 l hmem b hb hne
  rcases Finset.nonempty_iff_ne_empty.2 hl with ⟨x, hx⟩
  exact Finset.disjoint_left.1 hd hx (hsub hx)

/-- Facts about the two sides of a valid split of a part `b` of a partition. -/
theorem side_facts {S : Finset PartSet} {n : ℕ} (h : PartitionOf S n)
    {b l r : PartSet} (hb : b ∈ S) (hl : l ≠ ∅) (hr : r ≠ ∅)
    (hd : Disjoint l r) (hu : l ∪ r = b) :
    l ⊆ b ∧ r ⊆ b ∧ l ≠ b ∧ r ≠ b ∧ l ≠ r ∧ l ∉ S ∧ r ∉ S := by
  have hlb : l ⊆ b := hu ▸ Finset.subset_union_left
  have hrb : r ⊆ b := hu ▸ Finset.subset_union_right
  have hlnb : l ≠ b := by
    intro he
    exact hr (hd.symm.eq_bot_of_le (he ▸ hrb))
  have hrnb : r ≠ b := by
    intro he
    exact hl (hd.eq_bot_of_le (he ▸ hlb))
  have hlr : l ≠ r := by
    intro he
    exact hl (hd.eq_bot_of_le (le_of_eq he))
  exact ⟨hlb, hrb, hlnb, hrnb, hlr, not_mem_side h hb hl hlb hlnb,
    not_mem_side h hb hr hrb hrnb⟩

theorem insert_split {S : Finset PartSet} {n : ℕ} (h : PartitionOf S n)
    {b l r : PartSet} (hb : b ∈ S) (hl : l ≠ ∅) (hr : r ≠ ∅)
    (hd : Disjoint l r) (hu : l ∪ r = b) :
    PartitionOf (insert l (insert r (S.erase b))) n := by
  rcases side_facts h hb hl hr hd hu with ⟨hlb, hrb, _, _, _, hlS, hrS⟩
  refine ⟨?_, ?_, ?_⟩
  · intro p hp
    rcases Finset.mem_insert.1 hp with hp | hp
    · exact hp ▸ hl
    rcases Finset.mem_insert.1 hp with hp | hp
    · exact hp ▸ hr
    · exact h.1 p (Finset.mem_of_mem_erase hp)
  · have key : ∀ t ∈ S.erase b, Disjoint l t ∧ Disjoint r t := by
      intro t ht
      have htS := Finset.mem_of_mem_erase ht
      have htb : t ≠ b := Finset.ne_of_mem_erase ht
      have hdtb : Disjoint t b := h.2.1 t htS b hb htb
      exact ⟨Finset.disjoint_of_subset_left hlb hdtb.symm,
        Finset.disjoint_of_subset_left hrb hdtb.symm⟩
    intro p hp q hq hpq
    rcases Finset.mem_insert.1 hp with hp1 | hp'
    · subst hp1
      rcases Finset.mem_insert.1 hq with hq1 | hq'
      · exact absurd hq1.symm hpq
      rcases Finset.mem_insert.1 hq' with hq1 | hq2
      · subst hq1; exact hd
      · exact (key q hq2).1
    rcases Finset.mem_insert.1 hp' with hp1 | hp2
    · subst hp1
      rcases Finset.mem_insert.1 hq with hq1 | hq'
      · subst hq1; exact hd.symm
      rcases Finset.mem_insert.1 hq' with hq1 | hq2
      · exact absurd hq1.symm hpq
      · exact (key q hq2).2
    · rcases Finset.mem_insert.1 hq with hq1 | hq'
      · subst hq1; exact (key p hp2).1.symm
      rcases Finset.mem_insert.1 hq' with hq1 | hq2
      · subst hq1; exact (key p hp2).2.symm
      · exact h.2.1 p (Finset.mem_of_mem_erase hp2) q (Finset.mem_of_mem_erase hq2) hpq
  · ext x
    simp only [Finset.mem_biUnion, id]
    constructor
    · rintro ⟨p, hp, hxp⟩
      rcases Finset.mem_insert.1 hp with hp | hp
      · exact mem_Icc_of_mem h hb (hlb (hp ▸ hxp))
      rcases Finset.mem_insert.1 hp with hp | hp
      · exact mem_Icc_of_mem h hb (hrb (hp ▸ hxp))
      · exact mem_Icc_of_mem h (Finset.mem_of_mem_erase hp) hxp
    · intro hx
      rcases exists_mem h hx with ⟨p, hp, hxp⟩
      by_cases hpb : p = b
      · subst hpb
        rcases Finset.mem_union.1 (hu ▸ hxp) with hxl | hxr
        · exact ⟨l, Finset.mem_insert_self _ _, hxl⟩
        · exact ⟨r, Finset.mem_insert_of_mem (Finset.mem_insert_self _ _), hxr⟩
      · exact ⟨p, Finset.mem_insert_of_mem (Finset.mem_insert_of_mem
          (Finset.mem_erase.2 ⟨hpb, hp⟩)), hxp⟩

theorem card_insert_split {S : Finset PartSet} {n : ℕ} (h : PartitionOf S n)
    {b l r : PartSet} (hb : b ∈ S) (hl : l ≠ ∅) (hr : r ≠ ∅)
    (hd : Disjoint l r) (hu : l ∪ r = b) :
    (insert l (insert r (S.erase b))).card = S.card + 1 := by
  rcases side_facts h hb hl hr hd hu with ⟨_, _, _, _, hlr, hlS, hrS⟩
  have h1 : r ∉ S.erase b := fun hmem => hrS (Finset.mem_of_mem_erase hmem)
  have h2 : l ∉ insert r (S.erase b) := by
    intro hmem
    rcases Finset.mem_insert.1 hmem with hmem | hmem
    · exact hlr hmem
    · exact hlS (Finset.mem_of_mem_erase hmem)
  rw [Finset.card_insert_of_not_mem h2, Finset.card_insert_of_not_mem h1,
    Finset.card_erase_of_mem hb]
  have : 1 ≤ S.card := Finset.card_pos.2 ⟨b, hb⟩
  omega

theorem card_eq_one_of_card {S : Finset PartSet} {n : ℕ} (h : PartitionOf S n)
    (hcard : S.card = n) : ∀ p ∈ S, p.card = 1 := by
  have hIcc : (Finset.Icc 1 n).card = n := by rw [Nat.card_Icc]; omega
  have hbi : (S.biUnion id).card = ∑ p ∈ S, p.card := by
    simpa using Finset.card_biUnion (fun x hx y hy hxy => h.2.1 x hx y hy hxy)
  have hsum : ∑ p ∈ S, p.card = n := by
    rw [← hbi, h.2.2, hIcc]
  by_contra hcon
  push_neg at hcon
  rcases hcon with ⟨p0, hp0, hp0card⟩
  have hge : ∀ p ∈ S, 1 ≤ p.card := by
    intro p hp
    exact Finset.card_pos.2 (Finset.nonempty_iff_ne_empty.2 (h.1 p hp))
  have hlt : ∑ _p ∈ S, 1 < ∑ p ∈ S, p.card := by
    apply Finset.sum_lt_sum hge
    refine ⟨p0, hp0, ?_⟩
    have := hge p0 hp0
    omega
  rw [Finset.sum_const, smul_eq_mul, mul_one, hcard, hsum] at hlt
  omega

end PartitionOf

theorem PartsValid.split_parts {parent : Partition} {n : ℕ} {b l r : PartSet}
    (h : PartsValid parent.parts n) (hb : b ∈ parent.parts)
    (hl : l ≠ ∅) (hr : r ≠ ∅) (hd : Disjoint l r) (hu : l ∪ r = b) :
    PartsValid (Partition.split parent b l r).parts n := by
  have hbS : b ∈ parent.partsSet := List.mem_toFinset.2 hb
  rcases PartitionOf.side_facts h.2 hbS hl hr hd hu with ⟨_, _, _, _, hlr, hlS, hrS⟩
  constructor
  · show (Partition.replaceFirst parent.parts b l ++ [r]).Nodup
    rw [List.nodup_append]
    refine ⟨Partition.replaceFirst_nodup h.1 (fun hmem => hlS (List.mem_toFinset.2 hmem)),
      List.nodup_singleton r, ?_⟩
    intro a ha har
    rcases Partition.mem_of_mem_replaceFirst ha with h' | h'
    · rw [List.mem_singleton.1 har] at h'
      exact hrS (List.mem_toFinset.2 h')
    · rw [List.mem_singleton.1 har] at h'
      exact hlr h'.symm
  · show PartitionOf (Partition.split parent b l r).parts.toFinset n
    have : (Partition.split parent b l r).parts.toFinset
        = (Partition.split parent b l r).partsSet := rfl
    rw [this, Partition.partsSet_split h.1 hb]
    exact PartitionOf.insert_split h.2 hbS hl hr hd hu

/-! ## Chain-level lemmas -/

theorem EntryOk.dest {n : ℕ} {prev e : Partition} (h : EntryOk n prev e) :
    ∃ parent b l r, e = Partition.split parent b l r ∧
      PartsValid parent.parts n ∧ parent.partsSet = prev.partsSet ∧
      b ∈ parent.parts ∧ l ≠ ∅ ∧ r ≠ ∅ ∧ Disjoint l r ∧ l ∪ r = b := by
  cases e with
  | trivial m => exact absurd h (fun x => x)
  | split parent b l r => exact ⟨parent, b, l, r, rfl, h⟩

namespace Chain

theorem WF.length_eq {c : Chain} {n : ℕ} (h : c.WF n) : c.length = n := h.1

theorem WF.entry_zero {c : Chain} {n : ℕ} (h : c.WF n) :
    c.entry 0 = Partition.trivial n := by
  cases c with
  | nil =>
    have := h.2.1
    simp at this
  | cons p rest =>
    have hp : p = Partition.trivial n := by
      have := h.2.1
      simp only [List.head?_cons, Option.some_inj] at this
      exact this
    simpa [Chain.entry] using hp

theorem WF.n_pos {c : Chain} {n : ℕ} (h : c.WF n) : 1 ≤ n := by
  cases c with
  | nil => exact absurd h.2.1 (by simp)
  | cons p rest =>
    have := h.1
    simp at this
    omega

theorem WF.entryOk {c : Chain} {n : ℕ} (h : c.WF n) {d : ℕ} (hd : d + 1 < n) :
    EntryOk n (c.entry d) (c.entry (d+1)) := by
  apply h.2.2
  have := h.1
  omega

theorem WF.partsValid {c : Chain} {n : ℕ} (h : c.WF n) {d : ℕ} (hd : d < n) :
    PartsValid (c.entry d).parts n := by
  cases d with
  | zero =>
    rw [h.entry_zero]
    refine ⟨by simp [Partition.parts], ?_, ?_, ?_⟩
    · intro p hp
      simp only [Partition.parts, List.toFinset_cons, List.toFinset_nil] at hp
      rcases Finset.mem_insert.1 hp with hp | hp
      · subst hp
        exact Finset.nonempty_iff_ne_empty.1 (Finset.nonempty_Icc.2 h.n_pos)
      · simp at hp
    · intro p hp q hq hpq
      simp only [Partition.parts, List.toFinset_cons, List.toFinset_nil] at hp hq
      rcases Finset.mem_insert.1 hp with hp | hp
      · rcases Finset.mem_insert.1 hq with hq | hq
        · exact absurd (hp.trans hq.symm) hpq
        · simp at hq
      · simp at hp
    · show (Partition.trivial n).parts.toFinset.biUnion id = Finset.Icc 1 n
      simp [Partition.parts, Finset.singleton_biUnion]
  | succ d =>
    rcases (h.entryOk hd).dest with ⟨parent, b, l, r, he, hval, _, hb, hl, hr, hdisj, hu⟩
    rw [he]
    exact PartsValid.split_parts hval hb hl hr hdisj hu

theorem WF.partitionOf {c : Chain} {n : ℕ} (h : c.WF n) {d : ℕ} (hd : d < n) :
    PartitionOf (c.entry d).partsSet n := (h.partsValid hd).2

/-- The structural description of one chain step: the entry at `d+1` is a split
of a part `b` of the partition at `d` into `l` and `r`, and the part set at
`d+1` is obtained from the one at `d` by the insert/erase formula. -/
theorem WF.step {c : Chain} {n : ℕ} (h : c.WF n) {d : ℕ} (hd : d + 1 < n) :
    ∃ parent b l r, c.entry (d+1) = Partition.split parent b l r ∧
      b ∈ (c.entry d).partsSet ∧ l ≠ ∅ ∧ r ≠ ∅ ∧ Disjoint l r ∧ l ∪ r = b ∧
      (c.entry (d+1)).partsSet
        = insert l (insert r ((c.entry d).partsSet.erase b)) := by
  rcases (h.entryOk hd).dest with ⟨parent, b, l, r, he, hval, hps, hb, hl, hr, hdisj, hu⟩
  refine ⟨parent, b, l, r, he, hps ▸ List.mem_toFinset.2 hb, hl, hr, hdisj, hu, ?_⟩
  rw [he, Partition.partsSet_split hval.1 hb, hps]

theorem WF.card_partsSet {c : Chain} {n : ℕ} (h : c.WF n) {d : ℕ} (hd : d < n) :
    (c.entry d).partsSet.card = d + 1 := by
  induction d with
  | zero =>
    rw [h.entry_zero]
    show ((Partition.trivial n).parts.toFinset).card = 1
    simp [Partition.parts]
  | succ d ih =>
    rcases h.step hd with ⟨parent, b, l, r, _, hb, hl, hr, hdisj, hu, hset⟩
    rw [hset, PartitionOf.card_insert_split (h.partitionOf (by omega)) hb hl hr hdisj hu,
      ih (by omega)]

theorem WF.top_singletons {c : Chain} {n : ℕ} (h : c.WF n) :
    ∀ p ∈ (c.entry (n-1)).partsSet, p.card = 1 := by
  have hn := h.n_pos
  have hcard := h.card_partsSet (d := n-1) (by omega)
  have : (c.entry (n-1)).partsSet.card = n := by omega
  exact PartitionOf.card_eq_one_of_card (h.partitionOf (by omega)) this

theorem samePartAt_congr {c c' : Chain} {k i j : ℕ}
    (h : (c.entry k).partsSet = (c'.entry k).partsSet) :
    c.samePartAt k i j ↔ c'.samePartAt k i j := by
  unfold Chain.samePartAt
  rw [h]

theorem WF.samePart_zero {c : Chain} {n : ℕ} (h : c.WF n) {i j : ℕ}
    (hi : i ∈ Finset.Icc 1 n) (hj : j ∈ Finset.Icc 1 n) : c.samePartAt 0 i j := by
  refine ⟨Finset.Icc 1 n, ?_, hi, hj⟩
  rw [h.entry_zero]
  show Finset.Icc 1 n ∈ (Partition.trivial n).parts.toFinset
  simp [Partition.parts]

theorem WF.samePart_step_down {c : Chain} {n : ℕ} (h : c.WF n) {d i j : ℕ}
    (hd : d + 1 < n) (hsp : c.samePartAt (d+1) i j) :
    c.samePartAt d i j ∧ (c.entry (d+1)).splits i j = false := by
  rcases hsp with ⟨P, hP, hiP, hjP⟩
  rcases h.step hd with ⟨parent, b, l, r, he, hb, hl, hr, hdisj, hu, hset⟩
  have hvd1 : PartitionOf (c.entry (d+1)).partsSet n := h.partitionOf hd
  have hsplits : (c.entry (d+1)).splits i j
      = decide ((i ∈ l ∧ j ∈ r) ∨ (j ∈ l ∧ i ∈ r)) := by rw [he]; rfl
  have hlS : l ∈ (c.entry (d+1)).partsSet := by
    rw [hset]; exact Finset.mem_insert_self _ _
  have hrS : r ∈ (c.entry (d+1)).partsSet := by
    rw [hset]; exact Finset.mem_insert_of_mem (Finset.mem_insert_self _ _)
  rw [hset] at hP
  rcases Finset.mem_insert.1 hP with hP1 | hP'
  · subst hP1
    constructor
    · exact ⟨b, hb, hu ▸ Finset.mem_union_left _ hiP, hu ▸ Finset.mem_union_left _ hjP⟩
    · rw [hsplits]
      simp only [decide_eq_false_iff_not]
      rintro (⟨_, hjr⟩ | ⟨_, hir⟩)
      · exact Finset.disjoint_left.1 hdisj hjP hjr
      · exact Finset.disjoint_left.1 hdisj hiP hir
  rcases Finset.mem_insert.1 hP' with hP1 | hP2
  · subst hP1
    constructor
    · exact ⟨b, hb, hu ▸ Finset.mem_union_right _ hiP, hu ▸ Finset.mem_union_right _ hjP⟩
    · rw [hsplits]
      simp only [decide_eq_false_iff_not]
      rintro (⟨hil, _⟩ | ⟨hjl, _⟩)
      · exact Finset.disjoint_left.1 hdisj hil hiP
      · exact Finset.disjoint_left.1 hdisj hjl hjP
  · have hPS : P ∈ (c.entry d).partsSet := Finset.mem_of_mem_erase hP2
    have hPmem : P ∈ (c.entry (d+1)).partsSet := by
      rw [hset]
      exact Finset.mem_insert_of_mem (Finset.mem_insert_of_mem hP2)
    have hPl : P ≠ l := by
      intro he'
      have : l ∉ (c.entry d).partsSet :=
        (PartitionOf.side_facts (h.partitionOf (by omega)) hb hl hr hdisj hu).2.2.2.2.2.1
      exact this (he' ▸ hPS)
    have hPr : P ≠ r := by
      intro he'
      have : r ∉ (c.entry d).partsSet :=
        (PartitionOf.side_facts (h.partitionOf (by omega)) hb hl hr hdisj hu).2.2.2.2.2.2
      exact this (he' ▸ hPS)
    refine ⟨⟨P, hPS, hiP, hjP⟩, ?_⟩
    rw [hsplits]
    simp only [decide_eq_false_iff_not]
    rintro (⟨hil, _⟩ | ⟨hjl, _⟩)
    · exact hPl (PartitionOf.part_eq hvd1 hPmem hlS hiP hil)
    · exact hPl (PartitionOf.part_eq hvd1 hPmem hlS hjP hjl)

theorem WF.samePart_step_up {c : Chain} {n : ℕ} (h : c.WF n) {d i j : ℕ}
    (hd : d + 1 < n) (hsp : c.samePartAt d i j)
    (hns : (c.entry (d+1)).splits i j = false) : c.samePartAt (d+1) i j := by
  rcases hsp with ⟨P, hP, hiP, hjP⟩
  rcases h.step hd with ⟨parent, b, l, r, he, hb, hl, hr, hdisj, hu, hset⟩
  have hsplits : (c.entry (d+1)).splits i j
      = decide ((i ∈ l ∧ j ∈ r) ∨ (j ∈ l ∧ i ∈ r)) := by rw [he]; rfl
  rw [hsplits] at hns
  simp only [decide_eq_false_iff_not] at hns
  push_neg at hns
  by_cases hPb : P = b
  · subst hPb
    rcases Finset.mem_union.1 (hu ▸ hiP) with hil | hir
    · rcases Finset.mem_union.1 (hu ▸ hjP) with hjl | hjr
      · exact ⟨l, hset ▸ Finset.mem_insert_self _ _, hil, hjl⟩
      · exact absurd hjr (hns.1 hil)
    · rcases Finset.mem_union.1 (hu ▸ hjP) with hjl | hjr
      · exact absurd hir (hns.2 hjl)
      · exact ⟨r, hset ▸ Finset.mem_insert_of_mem (Finset.mem_insert_self _ _), hir, hjr⟩
  · exact ⟨P, hset ▸ Finset.mem_insert_of_mem (Finset.mem_insert_of_mem
      (Finset.mem_erase.2 ⟨hPb, hP⟩)), hiP, hjP⟩

theorem WF.samePart_iff_noSplit {c : Chain} {n : ℕ} (h : c.WF n) {k i j : ℕ}
    (hk : k < n) (hi : i ∈ Finset.Icc 1 n) (hj : j ∈ Finset.Icc 1 n) :
    c.samePartAt k i j ↔ ∀ e ≤ k, (c.entry e).splits i j = false := by
  induction k with
  | zero =>
    constructor
    · intro _ e he
      interval_cases e
      rw [h.entry_zero]
      rfl
    · intro _
      exact h.samePart_zero hi hj
  | succ k ih =>
    constructor
    · intro hsp e he
      rcases h.samePart_step_down hk hsp with ⟨hsp', hns⟩
      rcases Nat.lt_or_ge e (k+1) with he' | he'
      · exact (ih (by omega)).1 hsp' e (by omega)
      · have : e = k + 1 := by omega
        exact this ▸ hns
    · intro hall
      have hsp : c.samePartAt k i j :=
        (ih (by omega)).2 (fun e he => hall e (by omega))
      exact h.samePart_step_up hk hsp (hall (k+1) (le_refl _))

theorem splitDepth?_eq_some_iff {c : Chain} {i j d : ℕ} :
    c.splitDepth? i j = some d ↔ d < c.length ∧ (c.entry d).splits i j = true ∧
      ∀ e < d, (c.entry e).splits i j = false := by
  induction c generalizing d with
  | nil => simp [Chain.splitDepth?]
  | cons p rest ih =>
    rw [Chain.splitDepth?]
    by_cases hsp : p.splits i j
    · rw [if_pos hsp]
      cases d with
      | zero =>
        simp only [Option.some_inj]
        constructor
        · intro _
          exact ⟨by simp, hsp, fun e he => absurd he (Nat.not_lt_zero e)⟩
        · intro _
          trivial
      | succ d =>
        constructor
        · intro hcon
          exact absurd hcon (by simp)
        · rintro ⟨_, _, hall⟩
          have := hall 0 (Nat.succ_pos d)
          have h0 : Chain.entry (p :: rest) 0 = p := rfl
          rw [h0] at this
          rw [hsp] at this
          exact absurd this (by simp)
    · rw [if_neg hsp]
      cases d with
      | zero =>
        constructor
        · intro hcon
          rcases Option.map_eq_some'.1 hcon with ⟨a, _, ha⟩
          exact absurd ha (by omega)
        · rintro ⟨_, hs, _⟩
          have h0 : Chain.entry (p :: rest) 0 = p := rfl
          rw [h0] at hs
          exact absurd hs (by simp [hsp])
      | succ d =>
        constructor
        · intro hcon
          rcases Option.map_eq_some'.1 hcon with ⟨a, ha, ha'⟩
          have had : a = d := by omega
          subst had
          rcases ih.1 ha with ⟨h1, h2, h3⟩
          refine ⟨by simp; omega, h2, ?_⟩
          intro e he
          cases e with
          | zero =>
            show p.splits i j = false
            simp [hsp]
          | succ e =>
            exact h3 e (by omega)
        · rintro ⟨h1, h2, h3⟩
          have hrest : Chain.splitDepth? rest i j = some d := by
            apply ih.2
            refine ⟨by simp at h1; omega, h2, ?_⟩
            intro e he
            exact h3 (e+1) (by omega)
          rw [hrest]
          rfl

theorem splitDepth?_eq_none_iff {c : Chain} {i j : ℕ} :
    c.splitDepth? i j = none ↔ ∀ e < c.length, (c.entry e).splits i j = false := by
  induction c with
  | nil => simp [Chain.splitDepth?]
  | cons p rest ih =>
    rw [Chain.splitDepth?]
    by_cases hsp : p.splits i j
    · rw [if_pos hsp]
      constructor
      · intro hcon
        exact absurd hcon (by simp)
      · intro hall
        have hfalse := hall 0 (by simp)
        have h0 : Chain.entry (p :: rest) 0 = p := rfl
        rw [h0, hsp] at hfalse
        exact absurd hfalse (by simp)
    · rw [if_neg hsp]
      constructor
      · intro hnone e he
        have hrest : Chain.splitDepth? rest i j = none := by
          cases hcase : Chain.splitDepth? rest i j with
          | none => rfl
          | some a => rw [hcase] at hnone; exact absurd hnone (by simp)
        cases e with
        | zero => show p.splits i j = false; simp [hsp]
        | succ e => exact ih.1 hrest e (by simp at he; omega)
      · intro hall
        have : Chain.splitDepth? rest i j = none := by
          apply ih.2
          intro e he
          exact hall (e+1) (by simp; omega)
        rw [this]
        rfl

end Chain

namespace Chain

theorem WF.mem_Icc_of_splits {c : Chain} {n : ℕ} (h : c.WF n) {d i j : ℕ}
    (hd : d < n) (hs : (c.entry d).splits i j = true) :
    i ∈ Finset.Icc 1 n ∧ j ∈ Finset.Icc 1 n ∧ i ≠ j ∧ 1 ≤ d := by
  cases d with
  | zero =>
    rw [h.entry_zero] at hs
    exact absurd hs (by simp [Partition.splits])
  | succ e =>
    rcases h.step hd with ⟨parent, b, l, r, he, hb, hl, hr, hdisj, hu, _⟩
    rw [he] at hs
    have hs' : (i ∈ l ∧ j ∈ r) ∨ (j ∈ l ∧ i ∈ r) := by
      simpa [Partition.splits] using hs
    have hvd : PartitionOf (c.entry e).partsSet n := h.partitionOf (by omega)
    have hbsub : ∀ x, x ∈ l ∪ r → x ∈ Finset.Icc 1 n := by
      intro x hx
      exact PartitionOf.mem_Icc_of_mem hvd hb (hu ▸ hx)
    rcases hs' with ⟨hil, hjr⟩ | ⟨hjl, hir⟩
    · refine ⟨hbsub i (Finset.mem_union_left _ hil),
        hbsub j (Finset.mem_union_right _ hjr), ?_, by omega⟩
      intro he'
      exact Finset.disjoint_left.1 hdisj hil (he' ▸ hjr)
    · refine ⟨hbsub i (Finset.mem_union_right _ hir),
        hbsub j (Finset.mem_union_left _ hjl), ?_, by omega⟩
      intro he'
      exact Finset.disjoint_left.1 hdisj (he' ▸ hjl) hir

theorem WF.splitDepth_exists {c : Chain} {n : ℕ} (h : c.WF n) {i j : ℕ}
    (hi : i ∈ Finset.Icc 1 n) (hj : j ∈ Finset.Icc 1 n) (hij : i ≠ j) :
    ∃ d, c.splitDepth? i j = some d ∧ 1 ≤ d ∧ d ≤ n - 1 := by
  have hn := h.n_pos
  cases hcase : c.splitDepth? i j with
  | none =>
    exfalso
    have hall := splitDepth?_eq_none_iff.1 hcase
    have hsp : c.samePartAt (n-1) i j := by
      apply (h.samePart_iff_noSplit (by omega) hi hj).2
      intro e he
      exact hall e (by rw [h.length_eq]; omega)
    rcases hsp with ⟨P, hP, hiP, hjP⟩
    have hcard := h.top_singletons P hP
    rcases Finset.card_eq_one.1 hcard with ⟨a, ha⟩
    rw [ha] at hiP hjP
    exact hij ((Finset.mem_singleton.1 hiP).trans (Finset.mem_singleton.1 hjP).symm)
  | some d =>
    rcases splitDepth?_eq_some_iff.1 hcase with ⟨hlen, hs, _⟩
    rw [h.length_eq] at hlen
    rcases h.mem_Icc_of_splits hlen hs with ⟨_, _, _, hd1⟩
    exact ⟨d, rfl, hd1, by omega⟩

theorem WF.samePart_iff_depth_gt {c : Chain} {n : ℕ} (h : c.WF n) {i j s k : ℕ}
    (hs : c.splitDepth? i j = some s) (hk : k < n) :
    (c.samePartAt k i j ↔ k < s) := by
  rcases splitDepth?_eq_some_iff.1 hs with ⟨hlen, hsp, hall⟩
  rw [h.length_eq] at hlen
  rcases h.mem_Icc_of_splits hlen hsp with ⟨hi, hj, _, _⟩
  constructor
  · intro hsame
    by_contra hcon
    have hsk : s ≤ k := by omega
    have := (h.samePart_iff_noSplit hk hi hj).1 hsame s hsk
    rw [hsp] at this
    exact absurd this (by simp)
  · intro hks
    exact (h.samePart_iff_noSplit hk hi hj).2 (fun e he => hall e (by omega))

end Chain

/-- C3: on a well-formed maximal chain of length `n ≥ 2`, for every pair
`1 ≤ i < j ≤ n`, `split_depth(i, j)` is defined and returns the smallest index
`d` whose entry separates `i` and `j`, and `1 ≤ d ≤ n-1` (entry 0, the trivial
partition, separates no pair); and whenever no entry of a chain separates a
pair, `split_depth` yields the error value `none` (the StopIteration of the
source) rather than a default. -/
theorem C3_split_depth_range (c : Chain) (n i j : ℕ) (hwf : c.WF n) (hn : 2 ≤ n)
    (hi : 1 ≤ i) (hij : i < j) (hj : j ≤ n) :
    (∃ d, c.splitDepth? i j = some d ∧ 1 ≤ d ∧ d ≤ n - 1 ∧
      (c.entry d).splits i j = true ∧ ∀ e < d, (c.entry e).splits i j = false) ∧
    (∀ i' j', (∀ e < c.length, (c.entry e).splits i' j' = false) →
      c.splitDepth? i' j' = none) := by
  constructor
  · have hiIcc : i ∈ Finset.Icc 1 n := Finset.mem_Icc.2 ⟨hi, by omega⟩
    have hjIcc : j ∈ Finset.Icc 1 n := Finset.mem_Icc.2 ⟨by omega, hj⟩
    rcases hwf.splitDepth_exists hiIcc hjIcc (by omega) with ⟨d, hd, h1, h2⟩
    rcases Chain.splitDepth?_eq_some_iff.1 hd with ⟨_, hsp, hall⟩
    exact ⟨d, hd, h1, h2, hsp, hall⟩
  · intro i' j' hall
    exact Chain.splitDepth?_eq_none_iff.2 hall

/-- C3 witness at a concrete input. -/
theorem C3_split_depth_range_witness :
    chainA3.WF 3 ∧
    ((∃ d, chainA3.splitDepth? 1 2 = some d ∧ 1 ≤ d ∧ d ≤ 2 ∧
      (chainA3.entry d).splits 1 2 = true ∧
      ∀ e < d, (chainA3.entry e).splits 1 2 = false) ∧
    (∀ i' j', (∀ e < chainA3.length, (chainA3.entry e).splits i' j' = false) →
      chainA3.splitDepth? i' j' = none)) :=
  ⟨by decide, C3_split_depth_range chainA3 3 1 2 (by decide) (by decide)
    (by decide) (by decide) (by decide)⟩

/-! ## The push-down swap: `Chain.__swapped` -/

/-- Full functional specification of `Chain.__swapped` on one well-formed pair of
consecutive splits whose first member separates `i` and `j`: the result is a pair
of valid splits over the same ancestry whose second member carries the original
second partition (structurally) and now separates `i` and `j`, while the first no
longer does.  Covers the dependent branch (`split2.before` is a side of `split1`)
and the independent branch. -/
theorem swapped_spec {n : ℕ} {p0 p1 : Partition} {b0 l0 r0 b1 l1 r1 : PartSet} {i j : ℕ}
    (h0 : PartsValid p0.parts n) (hb0 : b0 ∈ p0.parts)
    (hl0 : l0 ≠ ∅) (hr0 : r0 ≠ ∅) (hd0 : Disjoint l0 r0) (hu0 : l0 ∪ r0 = b0)
    (hps1 : p1.partsSet = (Partition.split p0 b0 l0 r0).partsSet)
    (h1 : PartsValid p1.parts n) (hb1 : b1 ∈ p1.parts)
    (hl1 : l1 ≠ ∅) (hr1 : r1 ≠ ∅) (hd1 : Disjoint l1 r1) (hu1 : l1 ∪ r1 = b1)
    (hsp : (Partition.split p0 b0 l0 r0).splits i j = true) :
    (Chain.swapped (Partition.split p0 b0 l0 r0) (Partition.split p1 b1 l1 r1) i j).2.partsSet
        = (Partition.split p1 b1 l1 r1).partsSet ∧
    (Chain.swapped (Partition.split p0 b0 l0 r0) (Partition.split p1 b1 l1 r1) i j).1.splits i j
        = false ∧
    (Chain.swapped (Partition.split p0 b0 l0 r0) (Partition.split p1 b1 l1 r1) i j).2.splits i j
        = true ∧
    (∃ bA lA rA,
      (Chain.swapped (Partition.split p0 b0 l0 r0) (Partition.split p1 b1 l1 r1) i j).1
          = Partition.split p0 bA lA rA ∧
      bA ∈ p0.parts ∧ lA ≠ ∅ ∧ rA ≠ ∅ ∧ Disjoint lA rA ∧ lA ∪ rA = bA) ∧
    (∃ bB lB rB,
      (Chain.swapped (Partition.split p0 b0 l0 r0) (Partition.split p1 b1 l1 r1) i j).2
          = Partition.split
              (Chain.swapped (Partition.split p0 b0 l0 r0) (Partition.split p1 b1 l1 r1) i j).1
              bB lB rB ∧
      bB ∈ (Chain.swapped (Partition.split p0 b0 l0 r0) (Partition.split p1 b1 l1 r1) i j).1.parts ∧
      lB ≠ ∅ ∧ rB ≠ ∅ ∧ Disjoint lB rB ∧ lB ∪ rB = bB) := by
  have hb0S : b0 ∈ p0.partsSet := List.mem_toFinset.2 hb0
  rcases PartitionOf.side_facts h0.2 hb0S hl0 hr0 hd0 hu0 with
    ⟨hl0b, hr0b, hl0nb, hr0nb, hl0r0, hl0S, hr0S⟩
  have hl1b1 : l1 ⊆ b1 := hu1 ▸ Finset.subset_union_left
  have hr1b1 : r1 ⊆ b1 := hu1 ▸ Finset.subset_union_right
  have hij : (i ∈ l0 ∧ j ∈ r0) ∨ (j ∈ l0 ∧ i ∈ r0) := by
    simpa [Partition.splits] using hsp
  have hib0 : i ∈ b0 := by
    rcases hij with ⟨h', _⟩ | ⟨_, h'⟩
    · exact hl0b h'
    · exact hr0b h'
  have hjb0 : j ∈ b0 := by
    rcases hij with ⟨_, h'⟩ | ⟨h', _⟩
    · exact hr0b h'
    · exact hl0b h'
  have hs1set : (Partition.split p0 b0 l0 r0).partsSet
      = insert l0 (insert r0 (p0.partsSet.erase b0)) :=
    Partition.partsSet_split h0.1 hb0
  by_cases hdep : b1 = l0 ∨ b1 = r0
  · -- dependent case
    have hb1b0 : b1 ⊆ b0 := by
      rcases hdep with h' | h'
      · exact h' ▸ hl0b
      · exact h' ▸ hr0b
    -- which of i, j lies in b1
    have hxy : (i ∈ b1 ∧ j ∉ b1) ∨ (j ∈ b1 ∧ i ∉ b1) := by
      rcases hdep with h' | h' <;> rcases hij with ⟨hi', hj'⟩ | ⟨hj', hi'⟩
      · exact Or.inl ⟨h' ▸ hi', h' ▸ fun hc => Finset.disjoint_left.1 hd0 hc hj'⟩
      · exact Or.inr ⟨h' ▸ hj', h' ▸ fun hc => Finset.disjoint_left.1 hd0 hc hi'⟩
      · exact Or.inr ⟨h' ▸ hj', h' ▸ fun hc => Finset.disjoint_left.1 hd0 hi' hc⟩
      · exact Or.inl ⟨h' ▸ hi', h' ▸ fun hc => Finset.disjoint_left.1 hd0 hj' hc⟩
    -- the computed sides
    obtain ⟨U, hUdef⟩ : ∃ U', (if i ∉ l1 ∧ j ∉ l1 then l1 else r1) = U' := ⟨_, rfl⟩
    obtain ⟨V, hVdef⟩ : ∃ V', (if l0 ≠ b1 then l0 else r0) = V' := ⟨_, rfl⟩
    have hsw : Chain.swapped (Partition.split p0 b0 l0 r0) (Partition.split p1 b1 l1 r1) i j
        = (Partition.split p0 b0 U (b0 \ U),
           Partition.split (Partition.split p0 b0 U (b0 \ U)) (b0 \ U) V ((b0 \ U) \ V)) := by
      rw [Chain.swapped]
      have hcond : (Partition.split p1 b1 l1 r1).beforeD
            = (Partition.split p0 b0 l0 r0).leftD ∨
          (Partition.split p1 b1 l1 r1).beforeD
            = (Partition.split p0 b0 l0 r0).rightD := by
        simpa [Partition.beforeD, Partition.leftD, Partition.rightD] using hdep
      rw [if_pos hcond]
      simp only [Partition.beforeD, Partition.leftD, Partition.rightD, Partition.parentD,
        Split.from_side, Partition.rightD]
      rw [hUdef, hVdef]
    have hU : (U = l1 ∨ U = r1) ∧ i ∉ U ∧ j ∉ U := by
      by_cases hcond : i ∉ l1 ∧ j ∉ l1
      · rw [← hUdef, if_pos hcond]
        exact ⟨Or.inl rfl, hcond.1, hcond.2⟩
      · rw [← hUdef, if_neg hcond]
        push_neg at hcond
        rcases hxy with ⟨hx, hy⟩ | ⟨hx, hy⟩
        · have hjl1 : j ∉ l1 := fun hc => hy (hl1b1 hc)
          have hil1 : i ∈ l1 := by tauto
          exact ⟨Or.inr rfl, fun hc => Finset.disjoint_left.1 hd1 hil1 hc,
            fun hc => hy (hr1b1 hc)⟩
        · have hil1 : i ∉ l1 := fun hc => hy (hl1b1 hc)
          have hjl1 : j ∈ l1 := by tauto
          exact ⟨Or.inr rfl, fun hc => hy (hr1b1 hc),
            fun hc => Finset.disjoint_left.1 hd1 hjl1 hc⟩
    have hV : (b1 = l0 ∧ V = r0) ∨ (b1 = r0 ∧ V = l0) := by
      rcases hdep with h' | h'
      · refine Or.inl ⟨h', ?_⟩
        rw [← hVdef, if_neg (by simp [h'])]
      · refine Or.inr ⟨h', ?_⟩
        rw [← hVdef, if_pos (by rw [h']; exact hl0r0)]
    have hUb1 : U ⊆ b1 := by
      rcases hU.1 with h' | h'
      · exact h' ▸ hl1b1
      · exact h' ▸ hr1b1
    have hUne : U ≠ ∅ := by
      rcases hU.1 with h' | h'
      · exact h' ▸ hl1
      · exact h' ▸ hr1
    have hVb0 : V ⊆ b0 := by
      rcases hV with ⟨_, h'⟩ | ⟨_, h'⟩
      · exact h' ▸ hr0b
      · exact h' ▸ hl0b
    have hVne : V ≠ ∅ := by
      rcases hV with ⟨_, h'⟩ | ⟨_, h'⟩
      · exact h' ▸ hr0
      · exact h' ▸ hl0
    have hVb1 : Disjoint V b1 := by
      rcases hV with ⟨h1', h2'⟩ | ⟨h1', h2'⟩
      · exact h2' ▸ h1' ▸ hd0.symm
      · exact h2' ▸ h1' ▸ hd0
    -- the pair relative to U and V
    have hiU : i ∉ U := hU.2.1
    have hjU : j ∉ U := hU.2.2
    have hyV : (i ∈ V ∧ j ∈ b1) ∨ (j ∈ V ∧ i ∈ b1) := by
      rcases hV with ⟨h1', h2'⟩ | ⟨h1', h2'⟩ <;>
        rcases hij with ⟨hi', hj'⟩ | ⟨hj', hi'⟩
      · exact Or.inr ⟨h2' ▸ hj', h1' ▸ hi'⟩
      · exact Or.inl ⟨h2' ▸ hi', h1' ▸ hj'⟩
      · exact Or.inl ⟨h2' ▸ hi', h1' ▸ hj'⟩
      · exact Or.inr ⟨h2' ▸ hj', h1' ▸ hi'⟩
    have hxBU : ∃ x, x ∈ (b0 \ U) \ V ∧ x ∈ b1 := by
      rcases hxy with ⟨hx, _⟩ | ⟨hx, _⟩
      · exact ⟨i, Finset.mem_sdiff.2 ⟨Finset.mem_sdiff.2 ⟨hib0, hiU⟩,
          Finset.disjoint_right.1 hVb1 hx⟩, hx⟩
      · exact ⟨j, Finset.mem_sdiff.2 ⟨Finset.mem_sdiff.2 ⟨hjb0, hjU⟩,
          Finset.disjoint_right.1 hVb1 hx⟩, hx⟩
    have hBUne : (b0 \ U) ≠ ∅ := by
      rcases hxBU with ⟨x, hx, _⟩
      intro hc
      rw [Finset.eq_empty_iff_forall_not_mem] at hc
      exact hc x (Finset.mem_sdiff.1 hx).1
    have hBVne : ((b0 \ U) \ V) ≠ ∅ := by
      rcases hxBU with ⟨x, hx, _⟩
      intro hc
      rw [Finset.eq_empty_iff_forall_not_mem] at hc
      exact hc x hx
    have hUb0 : U ⊆ b0 := hUb1.trans hb1b0
    have hVBU : V ⊆ b0 \ U := by
      intro x hx
      exact Finset.mem_sdiff.2 ⟨hVb0 hx, fun hc =>
        Finset.disjoint_left.1 hVb1 hx (hUb1 hc)⟩
    have hUneb0 : U ≠ b0 := by
      intro hc
      rcases hxBU with ⟨x, hx, _⟩
      have := (Finset.mem_sdiff.1 (Finset.mem_sdiff.1 hx).1).2
      exact this (hc ▸ (Finset.mem_sdiff.1 (Finset.mem_sdiff.1 hx).1).1)
    have hBUneb0 : b0 \ U ≠ b0 := by
      rcases Finset.nonempty_iff_ne_empty.2 hUne with ⟨u, hu⟩
      intro hc
      have : u ∈ b0 \ U := hc.symm ▸ hUb0 hu
      exact (Finset.mem_sdiff.1 this).2 hu
    have hUneBU : U ≠ b0 \ U := by
      intro hc
      rcases Finset.nonempty_iff_ne_empty.2 hUne with ⟨u, hu⟩
      have := hc ▸ hu
      exact (Finset.mem_sdiff.1 this).2 hu
    have hUnotS : U ∉ p0.partsSet := PartitionOf.not_mem_side h0.2 hb0S hUne hUb0 hUneb0
    have hBUnotS : b0 \ U ∉ p0.partsSet :=
      PartitionOf.not_mem_side h0.2 hb0S hBUne Finset.sdiff_subset hBUneb0
    rw [hsw]
    -- split-validity data for the two results
    have ht1valid : PartsValid (Partition.split p0 b0 U (b0 \ U)).parts n :=
      PartsValid.split_parts h0 hb0 hUne hBUne Finset.disjoint_sdiff
        (Finset.union_sdiff_of_subset hUb0)
    have hBUparts : (b0 \ U) ∈ (Partition.split p0 b0 U (b0 \ U)).parts := by
      show (b0 \ U) ∈ Partition.replaceFirst p0.parts b0 U ++ [b0 \ U]
      exact List.mem_append_right _ (List.mem_singleton_self _)
    have ht1set : (Partition.split p0 b0 U (b0 \ U)).partsSet
        = insert U (insert (b0 \ U) (p0.partsSet.erase b0)) :=
      Partition.partsSet_split h0.1 hb0
    have ht2set : (Partition.split (Partition.split p0 b0 U (b0 \ U)) (b0 \ U) V
          ((b0 \ U) \ V)).partsSet
        = insert V (insert ((b0 \ U) \ V)
            ((Partition.split p0 b0 U (b0 \ U)).partsSet.erase (b0 \ U))) :=
      Partition.partsSet_split ht1valid.1 hBUparts
    have hs2set : (Partition.split p1 b1 l1 r1).partsSet
        = insert l1 (insert r1 ((insert l0 (insert r0 (p0.partsSet.erase b0))).erase b1)) := by
      rw [Partition.partsSet_split h1.1 hb1, hps1, hs1set]
    -- the erase computations
    have herase1 : (Partition.split p0 b0 U (b0 \ U)).partsSet.erase (b0 \ U)
        = insert U (p0.partsSet.erase b0) := by
      rw [ht1set, Finset.erase_insert_of_ne hUneBU, Finset.erase_insert
        (fun hc => hBUnotS (Finset.mem_of_mem_erase hc))]
    have hO : (b0 \ U) \ V = b1 \ U := by
      ext x
      simp only [Finset.mem_sdiff]
      constructor
      · rintro ⟨⟨hxb0, hxU⟩, hxV⟩
        refine ⟨?_, hxU⟩
        rcases hV with ⟨h1', h2'⟩ | ⟨h1', h2'⟩
        · rcases Finset.mem_union.1 (hu0 ▸ hxb0) with h'' | h''
          · exact h1' ▸ h''
          · exact absurd h'' (h2' ▸ hxV)
        · rcases Finset.mem_union.1 (hu0 ▸ hxb0) with h'' | h''
          · exact absurd h'' (h2' ▸ hxV)
          · exact h1' ▸ h''
      · rintro ⟨hxb1, hxU⟩
        exact ⟨⟨hb1b0 hxb1, hxU⟩, Finset.disjoint_right.1 hVb1 hxb1⟩
    have hUO : (U = l1 ∧ b1 \ U = r1) ∨ (U = r1 ∧ b1 \ U = l1) := by
      rcases hU.1 with h' | h'
      · refine Or.inl ⟨h', ?_⟩
        rw [h']
        ext x
        simp only [Finset.mem_sdiff]
        constructor
        · rintro ⟨hxb1, hxl1⟩
          rcases Finset.mem_union.1 (hu1 ▸ hxb1) with h'' | h''
          · exact absurd h'' hxl1
          · exact h''
        · intro hx
          exact ⟨hr1b1 hx, fun hc => Finset.disjoint_left.1 hd1 hc hx⟩
      · refine Or.inr ⟨h', ?_⟩
        rw [h']
        ext x
        simp only [Finset.mem_sdiff]
        constructor
        · rintro ⟨hxb1, hxr1⟩
          rcases Finset.mem_union.1 (hu1 ▸ hxb1) with h'' | h''
          · exact h''
          · exact absurd h'' hxr1
        · intro hx
          exact ⟨hl1b1 hx, fun hc => Finset.disjoint_right.1 hd1 hc hx⟩
    refine ⟨?_, ?_, ?_, ?_, ?_⟩
    · -- partsSet equality
      rw [ht2set, herase1, hO, hs2set]
      -- simplify the erase of b1 on the right
      have hl0notin : l0 ∉ insert r0 (p0.partsSet.erase b0) := by
        intro hc
        rcases Finset.mem_insert.1 hc with hc' | hc'
        · exact hl0r0 hc'
        · exact hl0S (Finset.mem_of_mem_erase hc')
      have hr0notin : r0 ∉ p0.partsSet.erase b0 :=
        fun hc => hr0S (Finset.mem_of_mem_erase hc)
      have hb1er : (insert l0 (insert r0 (p0.partsSet.erase b0))).erase b1
          = insert V (p0.partsSet.erase b0) := by
        rcases hV with ⟨h1', h2'⟩ | ⟨h1', h2'⟩
        · rw [h1', h2', Finset.erase_insert hl0notin]
        · rw [h1', h2', Finset.erase_insert_of_ne (fun hc => hl0r0 hc),
            Finset.erase_insert hr0notin]
      rw [hb1er]
      rcases hUO with ⟨hU', hO'⟩ | ⟨hU', hO'⟩ <;> rw [hO', hU']
      · rw [Finset.Insert.comm V r1, Finset.Insert.comm V l1, Finset.Insert.comm r1 l1]
      · rw [Finset.Insert.comm V l1, Finset.Insert.comm V r1]
    · -- first result no longer splits the pair
      show decide ((i ∈ U ∧ j ∈ b0 \ U) ∨ (j ∈ U ∧ i ∈ b0 \ U)) = false
      simp only [decide_eq_false_iff_not]
      rintro (⟨hc, _⟩ | ⟨hc, _⟩)
      · exact hiU hc
      · exact hjU hc
    · -- second result splits the pair
      show decide ((i ∈ V ∧ j ∈ (b0 \ U) \ V) ∨ (j ∈ V ∧ i ∈ (b0 \ U) \ V)) = true
      simp only [decide_eq_true_eq]
      rcases hyV with ⟨hiV, hjb1⟩ | ⟨hjV, hib1⟩
      · refine Or.inl ⟨hiV, Finset.mem_sdiff.2 ⟨Finset.mem_sdiff.2 ⟨hjb0, hjU⟩, ?_⟩⟩
        exact Finset.disjoint_right.1 hVb1 hjb1
      · refine Or.inr ⟨hjV, Finset.mem_sdiff.2 ⟨Finset.mem_sdiff.2 ⟨hib0, hiU⟩, ?_⟩⟩
        exact Finset.disjoint_right.1 hVb1 hib1
    · exact ⟨b0, U, b0 \ U, rfl, hb0, hUne, hBUne, Finset.disjoint_sdiff,
        Finset.union_sdiff_of_subset hUb0⟩
    · exact ⟨b0 \ U, V, (b0 \ U) \ V, rfl, hBUparts, hVne, hBVne,
        Finset.disjoint_sdiff, Finset.union_sdiff_of_subset hVBU⟩
  · -- independent case
    push_neg at hdep
    have hsw : Chain.swapped (Partition.split p0 b0 l0 r0) (Partition.split p1 b1 l1 r1) i j
        = (Partition.split p0 b1 l1 r1,
           Partition.split (Partition.split p0 b1 l1 r1) b0 l0 r0) := by
      rw [Chain.swapped]
      have hcond : ¬ ((Partition.split p1 b1 l1 r1).beforeD
            = (Partition.split p0 b0 l0 r0).leftD ∨
          (Partition.split p1 b1 l1 r1).beforeD
            = (Partition.split p0 b0 l0 r0).rightD) := by
        simpa [Partition.beforeD, Partition.leftD, Partition.rightD] using hdep
      rw [if_neg hcond]
      simp only [Partition.beforeD, Partition.leftD, Partition.rightD, Partition.parentD]
    have hb1s1 : b1 ∈ (Partition.split p0 b0 l0 r0).partsSet := hps1 ▸ List.mem_toFinset.2 hb1
    have hb1S : b1 ∈ p0.partsSet.erase b0 := by
      rw [hs1set] at hb1s1
      rcases Finset.mem_insert.1 hb1s1 with h' | h'
      · exact absurd h' hdep.1
      rcases Finset.mem_insert.1 h' with h' | h'
      · exact absurd h' hdep.2
      · exact h'
    have hb1S' : b1 ∈ p0.partsSet := Finset.mem_of_mem_erase hb1S
    have hb1nb0 : b1 ≠ b0 := Finset.ne_of_mem_erase hb1S
    have hb1parts : b1 ∈ p0.parts := List.mem_toFinset.1 hb1S'
    have hdisj01 : Disjoint b0 b1 := h0.2.2.1 b0 hb0S b1 hb1S' (fun hc => hb1nb0 hc.symm)
    have hib1 : i ∉ b1 := Finset.disjoint_left.1 hdisj01 hib0
    have hjb1 : j ∉ b1 := Finset.disjoint_left.1 hdisj01 hjb0
    have ht1valid : PartsValid (Partition.split p0 b1 l1 r1).parts n :=
      PartsValid.split_parts h0 hb1parts hl1 hr1 hd1 hu1
    have hb0t1 : b0 ∈ (Partition.split p0 b1 l1 r1).parts := by
      show b0 ∈ Partition.replaceFirst p0.parts b1 l1 ++ [r1]
      exact List.mem_append_left _ (Partition.mem_replaceFirst_of_ne hb0 (Ne.symm hb1nb0))
    have ht1set : (Partition.split p0 b1 l1 r1).partsSet
        = insert l1 (insert r1 (p0.partsSet.erase b1)) :=
      Partition.partsSet_split h0.1 hb1parts
    have ht2set : (Partition.split (Partition.split p0 b1 l1 r1) b0 l0 r0).partsSet
        = insert l0 (insert r0 ((Partition.split p0 b1 l1 r1).partsSet.erase b0)) :=
      Partition.partsSet_split ht1valid.1 hb0t1
    rw [hsw]
    have hb1l1 : b0 ≠ l1 := by
      intro hc
      rcases hij with ⟨hi', _⟩ | ⟨hj', _⟩
      · exact hib1 (hu1 ▸ Finset.mem_union_left _ (hc ▸ hl0b hi'))
      · exact hjb1 (hu1 ▸ Finset.mem_union_left _ (hc ▸ hl0b hj'))
    have hb1r1 : b0 ≠ r1 := by
      intro hc
      rcases hij with ⟨hi', _⟩ | ⟨hj', _⟩
      · exact hib1 (hu1 ▸ Finset.mem_union_right _ (hc ▸ hl0b hi'))
      · exact hjb1 (hu1 ▸ Finset.mem_union_right _ (hc ▸ hl0b hj'))
    refine ⟨?_, ?_, ?_, ?_, ?_⟩
    · -- partsSet equality
      rw [ht2set, ht1set, Partition.partsSet_split h1.1 hb1, hps1, hs1set]
      rw [Finset.erase_insert_of_ne (fun hc => hb1l1 hc.symm),
        Finset.erase_insert_of_ne (fun hc => hb1r1 hc.symm),
        Finset.erase_insert_of_ne (Ne.symm hdep.1), Finset.erase_insert_of_ne (Ne.symm hdep.2)]
      have hcomm : (p0.partsSet.erase b1).erase b0 = (p0.partsSet.erase b0).erase b1 := by
        ext x
        simp only [Finset.mem_erase]
        tauto
      rw [hcomm]
      ext P
      simp only [Finset.mem_insert]
      tauto
    · show decide ((i ∈ l1 ∧ j ∈ r1) ∨ (j ∈ l1 ∧ i ∈ r1)) = false
      simp only [decide_eq_false_iff_not]
      rintro (⟨hc, _⟩ | ⟨hc, _⟩)
      · exact hib1 (hl1b1 hc)
      · exact hjb1 (hl1b1 hc)
    · show decide ((i ∈ l0 ∧ j ∈ r0) ∨ (j ∈ l0 ∧ i ∈ r0)) = true
      simpa using hij
    · exact ⟨b1, l1, r1, rfl, hb1parts, hl1, hr1, hd1, hu1⟩
    · exact ⟨b0, l0, r0, rfl, hb0t1, hl0, hr0, hd0, hu0⟩

namespace Chain

theorem WF.noSplit_before {c : Chain} {n : ℕ} (hwf : c.WF n) {d i j : ℕ}
    (hd : d < n) (hsp : (c.entry d).splits i j = true) :
    ∀ e < d, (c.entry e).splits i j = false := by
  rcases hwf.mem_Icc_of_splits hd hsp with ⟨hi, hj, _, hd1⟩
  have hstep := hwf.step (d := d - 1) (by omega)
  rw [Nat.sub_add_cancel hd1] at hstep
  rcases hstep with ⟨parent, b, l, r, he, hb, hl, hr, hdisj, hu, _⟩
  have hij' : (i ∈ l ∧ j ∈ r) ∨ (j ∈ l ∧ i ∈ r) := by
    rw [he] at hsp
    simpa [Partition.splits] using hsp
  have hib : i ∈ b := by
    rcases hij' with ⟨h', _⟩ | ⟨_, h'⟩
    · exact hu ▸ Finset.mem_union_left _ h'
    · exact hu ▸ Finset.mem_union_right _ h'
  have hjb : j ∈ b := by
    rcases hij' with ⟨_, h'⟩ | ⟨h', _⟩
    · exact hu ▸ Finset.mem_union_right _ h'
    · exact hu ▸ Finset.mem_union_left _ h'
  have hsame : c.samePartAt (d-1) i j := ⟨b, hb, hib, hjb⟩
  have hall := (hwf.samePart_iff_noSplit (by omega) hi hj).1 hsame
  intro e he
  exact hall e (by omega)

/-- `pushed_down` on a well-formed chain at a depth whose entry separates the
pair: the result is well-formed, the pair now first separates at `d+1`, and the
partition at every index other than `d` is unchanged. -/
theorem WF.pushed_down_spec {c : Chain} {n d i j : ℕ} (hwf : c.WF n)
    (hd2 : d + 2 ≤ n) (hsp : (c.entry d).splits i j = true) :
    (c.pushed_down d i j).WF n ∧
    (c.pushed_down d i j).splitDepth? i j = some (d+1) ∧
    ∀ k, k ≠ d → ((c.pushed_down d i j).entry k).partsSet = (c.entry k).partsSet := by
  have hlen := hwf.length_eq
  have hd1 : 1 ≤ d := (hwf.mem_Icc_of_splits (by omega) hsp).2.2.2
  -- destructure the two entries being swapped
  have hOk0 := hwf.entryOk (d := d - 1) (by omega)
  rw [Nat.sub_add_cancel hd1] at hOk0
  rcases hOk0.dest with ⟨p0, b0, l0, r0, he0, h0, hps0, hb0, hl0, hr0, hd0, hu0⟩
  have hOk1 := hwf.entryOk (d := d) (by omega)
  rcases hOk1.dest with ⟨p1, b1, l1, r1, he1, h1, hps1, hb1, hl1, hr1, hdisj1, hu1⟩
  have hps1' : p1.partsSet = (Partition.split p0 b0 l0 r0).partsSet := by
    rw [hps1, he0]
  have hsp' : (Partition.split p0 b0 l0 r0).splits i j = true := he0 ▸ hsp
  have hspec := swapped_spec h0 hb0 hl0 hr0 hd0 hu0 hps1' h1 hb1 hl1 hr1 hdisj1 hu1 hsp'
  have hsw : Chain.swapped (c.entry d) (c.entry (d+1)) i j
      = Chain.swapped (Partition.split p0 b0 l0 r0) (Partition.split p1 b1 l1 r1) i j := by
    rw [he0, he1]
  have hlen2 : d + 2 ≤ c.length := by omega
  have hentry_d := Chain.pushed_down_entry_d (c := c) (d := d) (i := i) (j := j) hlen2
  have hentry_d1 := Chain.pushed_down_entry_d1 (c := c) (d := d) (i := i) (j := j) hlen2
  rw [hsw] at hentry_d hentry_d1
  rcases hspec with ⟨hset2, hnsp1, hsp2, ⟨bA, lA, rA, ht1, hbA, hlA, hrA, hdA, huA⟩,
    ⟨bB, lB, rB, ht2, hbB, hlB, hrB, hdB, huB⟩⟩
  have hnewlen : (c.pushed_down d i j).length = c.length := Chain.pushed_down_length hlen2
  have hval1 : PartsValid ((Chain.swapped (Partition.split p0 b0 l0 r0)
      (Partition.split p1 b1 l1 r1) i j).1).parts n := by
    rw [ht1]
    exact PartsValid.split_parts h0 hbA hlA hrA hdA huA
  constructor
  · -- well-formedness of the new chain
    refine ⟨by omega, ?_, ?_⟩
    · -- head preserved
      have h00 : (c.pushed_down d i j).get? 0 = c.get? 0 :=
        Chain.pushed_down_get?_lt (by omega) (by omega)
      rw [← List.get?_zero, h00, List.get?_zero]
      exact hwf.2.1
    · -- consecutive entries
      intro k hk
      rw [hnewlen] at hk
      have hklt : k + 1 < n := by omega
      rcases Nat.lt_or_ge (k+1) d with hcase | hcase
      · -- entirely below the modified region
        rw [Chain.pushed_down_entry_lt (by omega) (by omega),
          Chain.pushed_down_entry_lt (by omega) (by omega)]
        exact hwf.entryOk hklt
      rcases Nat.eq_or_lt_of_le hcase with hcase' | hcase'
      · -- k + 1 = d : link (d-1, d)
        subst hcase'
        rw [Chain.pushed_down_entry_lt (by omega) (by omega), hentry_d, ht1]
        show PartsValid p0.parts n ∧ p0.partsSet = (c.entry k).partsSet ∧ _ ∧ _ ∧ _ ∧ _ ∧ _
        refine ⟨h0, ?_, hbA, hlA, hrA, hdA, huA⟩
        simpa using hps0
      rcases Nat.eq_or_lt_of_le hcase' with hcase'' | hcase''
      · -- k = d : link (d, d+1)
        have hkd : k = d := by omega
        subst hkd
        rw [hentry_d, hentry_d1, ht2, ht1]
        rw [ht1] at hbB
        refine ⟨?_, rfl, hbB, hlB, hrB, hdB, huB⟩
        rw [← ht1]
        exact hval1
      rcases Nat.eq_or_lt_of_le hcase'' with hcase3 | hcase3
      · -- k = d + 1 : link (d+1, d+2)
        have hkd : k = d + 1 := by omega
        subst hkd
        rw [hentry_d1, Chain.pushed_down_entry_ge (k := d+1+1) hlen2 (by omega)]
        rcases (hwf.entryOk hklt).dest with
          ⟨p2, b2, l2, r2, he2, h2, hps2, hb2, hl2, hr2, hd2', hu2⟩
        rw [he2]
        show PartsValid p2.parts n ∧ p2.partsSet = _ ∧ _ ∧ _ ∧ _ ∧ _ ∧ _
        refine ⟨h2, ?_, hb2, hl2, hr2, hd2', hu2⟩
        rw [hps2, he1, hset2]
      · -- k ≥ d + 2
        rw [Chain.pushed_down_entry_ge hlen2 (by omega),
          Chain.pushed_down_entry_ge hlen2 (by omega)]
        exact hwf.entryOk hklt
  constructor
  · -- new split depth is d + 1
    apply Chain.splitDepth?_eq_some_iff.2
    refine ⟨by omega, ?_, ?_⟩
    · rw [hentry_d1, ← he1]
      rw [he1]
      exact hsp2
    · intro e he
      rcases Nat.lt_or_ge e d with hcase | hcase
      · rw [Chain.pushed_down_entry_lt hcase (by omega)]
        exact hwf.noSplit_before (by omega) hsp e hcase
      · have hed : e = d := by omega
        subst hed
        rw [hentry_d]
        exact hnsp1
  · -- partitions unchanged away from d
    intro k hkd
    rcases Nat.lt_or_ge k d with hcase | hcase
    · rw [Chain.pushed_down_entry_lt hcase (by omega)]
    rcases Nat.eq_or_lt_of_le hcase with hcase' | hcase'
    · exact absurd hcase'.symm hkd
    rcases Nat.eq_or_lt_of_le hcase' with hcase'' | hcase''
    · rw [← hcase'', hentry_d1, hset2, ← he1]
    · rw [Chain.pushed_down_entry_ge hlen2 (by omega)]

end Chain

/-- C1: on a well-formed maximal chain of length `n`, for `1 ≤ d ≤ n-2` and a
pair `i ≠ j` separated by entry `d`, `pushed_down(d, i, j)` returns a chain in
which `split_depth(i, j)` is `d+1`, whose partition at every index other than
`d` equals the corresponding partition of the original chain — in particular
the partition of the new entry `d+1` equals that of the old entry `d+1`, and
the final index `n-1` partition is identical.  The proof (`swapped_spec`)
covers both the dependent case (`before₁ ∈ {left₀, right₀}`) and the
independent case. -/
theorem C1_pushed_down_correct (c : Chain) (n d i j : ℕ) (hwf : c.WF n)
    (hd1 : 1 ≤ d) (hd2 : d ≤ n - 2) (hij : i ≠ j)
    (hsep : (c.entry d).splits i j = true) :
    (c.pushed_down d i j).splitDepth? i j = some (d + 1) ∧
    (∀ k, k ≠ d → ((c.pushed_down d i j).entry k).partsSet = (c.entry k).partsSet) ∧
    ((c.pushed_down d i j).entry (d+1)).partsSet = (c.entry (d+1)).partsSet ∧
    ((c.pushed_down d i j).entry (n-1)).partsSet = (c.entry (n-1)).partsSet := by
  have hd2' : d + 2 ≤ n := by omega
  rcases hwf.pushed_down_spec hd2' hsep with ⟨_, hsd, hpart⟩
  exact ⟨hsd, hpart, hpart (d+1) (by omega), hpart (n-1) (by omega)⟩

/-- C1 witness at a concrete input (the n = 3 chain `123 -> 1|23 -> 1|2|3`,
pushing the pair (1,2) down from depth 1). -/
theorem C1_pushed_down_correct_witness :
    chainA3.WF 3 ∧ (chainA3.entry 1).splits 1 2 = true ∧
    ((chainA3.pushed_down 1 1 2).splitDepth? 1 2 = some 2 ∧
     (∀ k, k ≠ 1 →
       ((chainA3.pushed_down 1 1 2).entry k).partsSet = (chainA3.entry k).partsSet) ∧
     ((chainA3.pushed_down 1 1 2).entry 2).partsSet = (chainA3.entry 2).partsSet ∧
     ((chainA3.pushed_down 1 1 2).entry 2).partsSet = (chainA3.entry 2).partsSet) :=
  ⟨by decide, by decide,
    C1_pushed_down_correct chainA3 3 1 1 2 (by decide) (by decide) (by decide)
      (by decide) (by decide)⟩

/-! ## The pair selection of `__next_i_j` -/

namespace ChainPath

theorem tripLe_refl (a : ℕ × ℕ × ℕ) : tripLe a a = true := by
  simp [ChainPath.tripLe]

theorem tripLe_total (a b : ℕ × ℕ × ℕ) : tripLe a b = true ∨ tripLe b a = true := by
  simp only [ChainPath.tripLe, decide_eq_true_eq]
  omega

theorem tripLe_trans {a b c : ℕ × ℕ × ℕ} (h1 : tripLe a b = true)
    (h2 : tripLe b c = true) : tripLe a c = true := by
  simp only [ChainPath.tripLe, decide_eq_true_eq] at h1 h2 ⊢
  omega

theorem tripMin_cases (a b : ℕ × ℕ × ℕ) : tripMin a b = a ∨ tripMin a b = b := by
  unfold ChainPath.tripMin
  by_cases h : tripLe a b
  · rw [if_pos h]; exact Or.inl rfl
  · rw [if_neg h]; exact Or.inr rfl

theorem tripMin_le_left (a b : ℕ × ℕ × ℕ) : tripLe (tripMin a b) a = true := by
  unfold ChainPath.tripMin
  by_cases h : tripLe a b
  · rw [if_pos h]; exact tripLe_refl a
  · rw [if_neg h]
    rcases tripLe_total a b with h' | h'
    · exact absurd h' (by simpa using h)
    · exact h'

theorem tripMin_le_right (a b : ℕ × ℕ × ℕ) : tripLe (tripMin a b) b = true := by
  unfold ChainPath.tripMin
  by_cases h : tripLe a b
  · rw [if_pos h]; exact h
  · rw [if_neg h]; exact tripLe_refl b

theorem foldl_tripMin_mem (qs : List (ℕ × ℕ × ℕ)) (q : ℕ × ℕ × ℕ) :
    qs.foldl tripMin q = q ∨ qs.foldl tripMin q ∈ qs := by
  induction qs generalizing q with
  | nil => exact Or.inl rfl
  | cons x xs ih =>
    rw [List.foldl_cons]
    rcases ih (tripMin q x) with h | h
    · rcases tripMin_cases q x with h' | h'
      · exact Or.inl (h.trans h')
      · exact Or.inr (by rw [h, h']; exact List.mem_cons_self _ _)
    · exact Or.inr (List.mem_cons_of_mem _ h)

theorem foldl_tripMin_le (qs : List (ℕ × ℕ × ℕ)) (q : ℕ × ℕ × ℕ) :
    tripLe (qs.foldl tripMin q) q = true ∧
    ∀ x ∈ qs, tripLe (qs.foldl tripMin q) x = true := by
  induction qs generalizing q with
  | nil => exact ⟨tripLe_refl q, fun x hx => absurd hx (List.not_mem_nil x)⟩
  | cons y ys ih =>
    rw [List.foldl_cons]
    rcases ih (tripMin q y) with ⟨h1, h2⟩
    refine ⟨tripLe_trans h1 (tripMin_le_left q y), ?_⟩
    intro x hx
    rcases List.mem_cons.1 hx with hx' | hx'
    · rw [hx']
      exact tripLe_trans h1 (tripMin_le_right q y)
    · exact h2 x hx'

theorem mem_allPairs {n i j : ℕ} :
    (i, j) ∈ allPairs n ↔ 1 ≤ i ∧ i < j ∧ j ≤ n := by
  simp only [ChainPath.allPairs, List.mem_flatMap, List.mem_map, List.mem_range'_1]
  constructor
  · rintro ⟨a, ⟨ha1, ha2⟩, b, ⟨hb1, hb2⟩, heq⟩
    have h1 : a = i := congrArg Prod.fst heq
    have h2 : b = j := congrArg Prod.snd heq
    subst h1
    subst h2
    refine ⟨?_, ?_, ?_⟩ <;> omega
  · rintro ⟨h1, h2, h3⟩
    exact ⟨i, by omega, j, by constructor <;> omega, rfl⟩

/-- Membership in the candidate-tuple list built inside `__next_i_j`. -/
theorem mem_nextIJ_quads {cp : ChainPath} {d : ℕ} {t : ℕ × ℕ × ℕ} :
    t ∈ ((allPairs cp.chain1.length).filterMap fun p =>
      if (p.1, p.2) ∈ cp.picked then none else
      if (lastChain cp.path1).split_depth p.1 p.2 < d ∨
          (lastChain cp.path2).split_depth p.1 p.2 < d then
        some (2*cp.chain1.length - (lastChain cp.path1).split_depth p.1 p.2
          - (lastChain cp.path2).split_depth p.1 p.2, p.1, p.2)
      else none)
    ↔ ∃ p, cp.qualifies d p ∧ t = cp.pairKey p := by
  rw [List.mem_filterMap]
  constructor
  · rintro ⟨p, hp, hf⟩
    by_cases h1 : (p.1, p.2) ∈ cp.picked
    · rw [if_pos h1] at hf
      exact absurd hf (by simp)
    rw [if_neg h1] at hf
    by_cases h2 : (lastChain cp.path1).split_depth p.1 p.2 < d ∨
        (lastChain cp.path2).split_depth p.1 p.2 < d
    · rw [if_pos h2] at hf
      have hmem : (p.1, p.2) ∈ allPairs cp.chain1.length := by
        rcases p with ⟨a, b⟩
        exact hp
      rcases mem_allPairs.1 hmem with ⟨ha, hb, hc⟩
      refine ⟨p, ⟨ha, hb, hc, ?_, h2⟩, (Option.some_inj.1 hf).symm⟩
      rcases p with ⟨a, b⟩
      exact h1
    · rw [if_neg h2] at hf
      exact absurd hf (by simp)
  · rintro ⟨p, ⟨ha, hb, hc, hpick, hdep⟩, ht⟩
    refine ⟨p, ?_, ?_⟩
    · rcases p with ⟨a, b⟩
      exact mem_allPairs.2 ⟨ha, hb, hc⟩
    · have h1 : ¬ ((p.1, p.2) ∈ cp.picked) := by
        rcases p with ⟨a, b⟩
        exact hpick
      rw [if_neg h1, if_pos hdep, ht]
      rfl

end ChainPath

/-- Full characterisation of `__next_i_j`: emptiness, qualification and
minimality of the returned pair, and the early stop of the depth loop. -/
theorem nextIJ_spec (cp : ChainPath) (d : ℕ) :
    (cp.next_i_j d = none ↔ ∀ p, ¬ cp.qualifies d p) ∧
    (∀ i j, cp.next_i_j d = some (i, j) →
      cp.qualifies d (i, j) ∧
      ∀ p, cp.qualifies d p →
        ChainPath.tripLe (cp.pairKey (i, j)) (cp.pairKey p) = true) ∧
    (∀ ds, cp.next_i_j d = none → cp.findGo (d :: ds) = cp) := by
  have hmem := fun t => @ChainPath.mem_nextIJ_quads cp d t
  have hndef : cp.next_i_j d
      = (match ((ChainPath.allPairs cp.chain1.length).filterMap fun p =>
          if (p.1, p.2) ∈ cp.picked then none else
          if (ChainPath.lastChain cp.path1).split_depth p.1 p.2 < d ∨
              (ChainPath.lastChain cp.path2).split_depth p.1 p.2 < d then
            some (2*cp.chain1.length - (ChainPath.lastChain cp.path1).split_depth p.1 p.2
              - (ChainPath.lastChain cp.path2).split_depth p.1 p.2, p.1, p.2)
          else none) with
        | [] => none
        | q :: qs => some (qs.foldl ChainPath.tripMin q).2) := rfl
  refine ⟨?_, ?_, ?_⟩
  · cases hL : ((ChainPath.allPairs cp.chain1.length).filterMap fun p =>
        if (p.1, p.2) ∈ cp.picked then none else
        if (ChainPath.lastChain cp.path1).split_depth p.1 p.2 < d ∨
            (ChainPath.lastChain cp.path2).split_depth p.1 p.2 < d then
          some (2*cp.chain1.length - (ChainPath.lastChain cp.path1).split_depth p.1 p.2
            - (ChainPath.lastChain cp.path2).split_depth p.1 p.2, p.1, p.2)
        else none) with
    | nil =>
      rw [hndef, hL]
      constructor
      · intro _ p hp
        have hfalse : cp.pairKey p ∈ ([] : List (ℕ × ℕ × ℕ)) := by
          rw [← hL]
          exact (hmem (cp.pairKey p)).2 ⟨p, hp, rfl⟩
        simp at hfalse
      · intro _
        rfl
    | cons q qs =>
      rw [hndef, hL]
      constructor
      · intro hcon
        exact absurd hcon (by simp)
      · intro hall
        have hq : q ∈ q :: qs := List.mem_cons_self _ _
        rw [← hL] at hq
        rcases (hmem q).1 hq with ⟨p, hp, _⟩
        exact absurd hp (hall p)
  · intro i j hsome
    rw [hndef] at hsome
    cases hL : ((ChainPath.allPairs cp.chain1.length).filterMap fun p =>
        if (p.1, p.2) ∈ cp.picked then none else
        if (ChainPath.lastChain cp.path1).split_depth p.1 p.2 < d ∨
            (ChainPath.lastChain cp.path2).split_depth p.1 p.2 < d then
          some (2*cp.chain1.length - (ChainPath.lastChain cp.path1).split_depth p.1 p.2
            - (ChainPath.lastChain cp.path2).split_depth p.1 p.2, p.1, p.2)
        else none) with
    | nil =>
      rw [hL] at hsome
      exact absurd hsome (by simp)
    | cons q qs =>
      rw [hL] at hsome
      have hsome2 : some ((qs.foldl ChainPath.tripMin q).2) = some (i, j) := hsome
      have hsome3 : (qs.foldl ChainPath.tripMin q).2 = (i, j) := Option.some_inj.1 hsome2
      have hm : qs.foldl ChainPath.tripMin q ∈ q :: qs := by
        rcases ChainPath.foldl_tripMin_mem qs q with h | h
        · rw [h]; exact List.mem_cons_self _ _
        · exact List.mem_cons_of_mem _ h
      rw [← hL] at hm
      rcases (hmem _).1 hm with ⟨p0, hp0, hkey⟩
      have hij : (i, j) = p0 := by
        rw [← hsome3, hkey]
        rfl
      have hkey2 : cp.pairKey (i, j) = qs.foldl ChainPath.tripMin q := by
        rw [hij, hkey]
      constructor
      · rw [hij]; exact hp0
      · intro p hp
        have hpL : cp.pairKey p ∈ q :: qs := by
          rw [← hL]
          exact (hmem _).2 ⟨p, hp, rfl⟩
        rw [hkey2]
        rcases List.mem_cons.1 hpL with h' | h'
        · rw [h']
          exact (ChainPath.foldl_tripMin_le qs q).1
        · exact (ChainPath.foldl_tripMin_le qs q).2 _ h'
  · intro ds hnone
    rw [ChainPath.findGo, hnone]

/-- C4: in each iteration of `find()` at target depth `d`, the pair returned by
`__next_i_j` is, among all unpicked pairs `1 ≤ i < j ≤ n` whose split depth in
one of the two paths' last chains lies below `d`, the one minimizing the tuple
`(2n - d1 - d2, i, j)` — i.e. minimizing `2n - d1 - d2` with ties broken by
ascending lexicographic `(i, j)`; and when no such pair remains `__next_i_j`
is empty and the entire depth loop of `findGo` stops at once (no lower depth is
processed). -/
theorem C4_pair_selection (cp : ChainPath) (d : ℕ) :
    (cp.next_i_j d = none ↔ ∀ p, ¬ cp.qualifies d p) ∧
    (∀ i j, cp.next_i_j d = some (i, j) →
      cp.qualifies d (i, j) ∧
      ∀ p, cp.qualifies d p →
        ChainPath.tripLe (cp.pairKey (i, j)) (cp.pairKey p) = true) ∧
    (∀ ds, cp.next_i_j d = none → cp.findGo (d :: ds) = cp) :=
  nextIJ_spec cp d

/-- C4 witness at a concrete input (equal chains of size 3, target depth 2:
the selected pair is (1,2)). -/
theorem C4_pair_selection_witness :
    (ChainPath.init chainA3 chainA3).next_i_j 2 = some (1, 2) ∧
    (ChainPath.init chainA3 chainA3).qualifies 2 (1, 2) ∧
    ChainPath.tripLe ((ChainPath.init chainA3 chainA3).pairKey (1, 2))
      ((ChainPath.init chainA3 chainA3).pairKey (1, 3)) = true :=
  have h := (C4_pair_selection (ChainPath.init chainA3 chainA3) 2).2.1 1 2 (by decide)
  ⟨by decide, h.1, h.2 (1, 3) (by decide)⟩

/-! ## `find` on two equal chains -/

namespace ChainPath

theorem head?_append_left {α : Type} {l1 : List α} (l2 : List α) (h : l1 ≠ []) :
    (l1 ++ l2).head? = l1.head? := by
  cases l1 with
  | nil => exact absurd rfl h
  | cons a as => rfl

theorem foldl_append_ne_nil_head (f : List Chain → ℕ → Chain) :
    ∀ (l : List ℕ) (path : List Chain), path ≠ [] →
      l.foldl (fun p depth => p ++ [f p depth]) path ≠ [] ∧
      (l.foldl (fun p depth => p ++ [f p depth]) path).head? = path.head? := by
  intro l
  induction l with
  | nil => exact fun path h => ⟨h, rfl⟩
  | cons x xs ih =>
    intro path h
    rw [List.foldl_cons]
    have hne : path ++ [f path x] ≠ [] := by simp
    rcases ih (path ++ [f path x]) hne with ⟨h1, h2⟩
    exact ⟨h1, h2.trans (head?_append_left _ h)⟩

theorem push_down_ne_nil_head {path : List Chain} {e i j : ℕ} (h : path ≠ []) :
    ChainPath.push_down path e i j ≠ [] ∧
    (ChainPath.push_down path e i j).head? = path.head? :=
  foldl_append_ne_nil_head (fun p depth => (lastChain p).pushed_down depth i j)
    (List.range' ((lastChain path).split_depth i j)
      (e - (lastChain path).split_depth i j)) path h

theorem findGo_symmetric (ds : List ℕ) (cp : ChainPath)
    (h12 : cp.path1 = cp.path2) (hne : cp.path1 ≠ []) :
    (cp.findGo ds).path1 = (cp.findGo ds).path2 ∧
    (cp.findGo ds).path1.head? = cp.path1.head? ∧
    (cp.findGo ds).path1 ≠ [] := by
  induction ds generalizing cp with
  | nil => exact ⟨h12, rfl, hne⟩
  | cons d ds ih =>
    rw [ChainPath.findGo]
    cases hn : cp.next_i_j d with
    | none => exact ⟨h12, rfl, hne⟩
    | some pr =>
      rcases pr with ⟨i, j⟩
      have hstep : ChainPath.push_down cp.path1 d i j = ChainPath.push_down cp.path2 d i j := by
        rw [h12]
      rcases push_down_ne_nil_head (e := d) (i := i) (j := j) hne with ⟨hne', hhd⟩
      rcases ih { cp with
          path1 := ChainPath.push_down cp.path1 d i j,
          path2 := ChainPath.push_down cp.path2 d i j,
          picked := (i, j) :: cp.picked } (by simpa using hstep) hne' with ⟨k1, k2, k3⟩
      exact ⟨k1, k2.trans hhd, k3⟩

theorem zip_self (c : List Partition) : c.zip c = c.map (fun p => (p, p)) := by
  induction c with
  | nil => rfl
  | cons p rest ih => simp [List.zip_cons_cons, ih]

theorem chainEqB_refl (c : Chain) : chainEqB c c = true := by
  unfold chainEqB
  rw [zip_self]
  simp [List.all_map, Partition.peq]

theorem path_endpoints {cp : ChainPath} (h12 : cp.path1 = cp.path2) (hne : cp.path1 ≠ []) :
    cp.path.head? = cp.path1.head? ∧ cp.path.getLast? = cp.path1.head? := by
  unfold ChainPath.path
  rw [← h12]
  cases hp : cp.path1 with
  | nil => exact absurd hp hne
  | cons a rest =>
    constructor
    · rfl
    · cases hr : rest with
      | nil => rfl
      | cons b rest' =>
        have hd : (a :: b :: rest').dropLast = a :: (b :: rest').dropLast := rfl
        rw [hd]
        have hrev : (a :: (b :: rest').dropLast).reverse ≠ [] := by simp
        rw [List.getLast?_append_of_ne_nil _ hrev, List.getLast?_reverse]
        rfl

end ChainPath

/-- C6 counterexample: for the n = 3 chain `123 -> 1|23 -> 1|2|3`,
`ChainPath(C, C).find()` yields a three-element path, not the single-element
path `[C]` (the depth-2 iteration still pushes the pair (1,2) down in both
copies). -/
theorem C6_self_path_counterexample :
    (ChainPath.find (ChainPath.init chainA3 chainA3)).path ≠ [chainA3] ∧
    (ChainPath.find (ChainPath.init chainA3 chainA3)).path.length = 3 := by
  constructor
  · decide
  · decide

/-- C6 amended: `ChainPath(C, C).find()` keeps the two working paths identical
throughout (the same deterministic operations are applied to both), so it
terminates with the convergence assertion satisfied and returns a path whose
first and last elements are both `C`; the path need not be the single-element
`[C]` (for the n = 3 chain above it has three elements). -/
theorem C6_self_path_amended (c : Chain) :
    (ChainPath.find (ChainPath.init c c)).path.head? = some c ∧
    (ChainPath.find (ChainPath.init c c)).path.getLast? = some c ∧
    (ChainPath.find (ChainPath.init c c)).converged = true := by
  have hsym := ChainPath.findGo_symmetric
    ((List.range (ChainPath.init c c).chain1.length).reverse)
    { ChainPath.init c c with picked := [] } rfl (by simp [ChainPath.init])
  rcases hsym with ⟨h12, hhd, hne⟩
  have hfind : ChainPath.find (ChainPath.init c c)
      = ChainPath.findGo { ChainPath.init c c with picked := [] }
          ((List.range (ChainPath.init c c).chain1.length).reverse) := rfl
  rcases ChainPath.path_endpoints h12 hne with ⟨he1, he2⟩
  have hinit : ({ ChainPath.init c c with picked := [] } : ChainPath).path1 = [c] := rfl
  rw [hinit] at hhd
  refine ⟨?_, ?_, ?_⟩
  · rw [hfind, he1, hhd]
    rfl
  · rw [hfind, he2, hhd]
    rfl
  · rw [hfind]
    unfold ChainPath.converged
    rw [h12]
    exact ChainPath.chainEqB_refl _

/-! ## Convergence of `find` (C2) and the path length bound (C8) -/

namespace Chain

/-- `split_depth` rewrites to the value of `splitDepth?` when the latter is
defined. -/
theorem split_depth_eq {c : Chain} {i j s : ℕ} (h : c.splitDepth? i j = some s) :
    c.split_depth i j = s := by
  rw [Chain.split_depth, h]
  rfl

/-- Elementwise `peq` holds along the zip of two chains whose partitions agree
at every index. -/
theorem zip_all_peq : ∀ c c' : Chain, c.length = c'.length →
    (∀ k, k < c.length → (c.entry k).partsSet = (c'.entry k).partsSet) →
    ((c.zip c').all fun pq => pq.1.peq pq.2) = true := by
  intro c
  induction c with
  | nil =>
    intro c' _ _
    rfl
  | cons p rest ih =>
    intro c' hlen hall
    cases c' with
    | nil => simp at hlen
    | cons q rest' =>
      rw [List.zip_cons_cons, List.all_cons, Bool.and_eq_true]
      refine ⟨?_, ?_⟩
      · have h0 := hall 0 (by simp)
        simp only [Partition.peq]
        exact decide_eq_true h0
      · apply ih rest' (by simpa using hlen)
        intro k hk
        have h' := hall (k+1) (by simp only [List.length_cons]; omega)
        rwa [Chain.entry_cons_succ, Chain.entry_cons_succ] at h'

/-- Structural equality of two chains follows from equal lengths and equal
partitions at every index (`list.__eq__` with `Partition.__eq__`). -/
theorem chainEqB_of_partsSet {c c' : Chain} (hlen : c.length = c'.length)
    (hall : ∀ k, k < c.length → (c.entry k).partsSet = (c'.entry k).partsSet) :
    chainEqB c c' = true := by
  show (c.length == c'.length && ((c.zip c').all fun pq => pq.1.peq pq.2)) = true
  rw [Bool.and_eq_true]
  exact ⟨beq_iff_eq.2 hlen, zip_all_peq c c' hlen hall⟩

end Chain

namespace PartitionOf

/-- A partition of `{1..n}` all of whose parts are singletons is the set of
singletons. -/
theorem eq_singletons {S : Finset PartSet} {n : ℕ} (h : PartitionOf S n)
    (h1 : ∀ p ∈ S, p.card = 1) :
    S = (Finset.Icc 1 n).image (fun x => ({x} : PartSet)) := by
  ext P
  constructor
  · intro hP
    rcases Finset.card_eq_one.1 (h1 P hP) with ⟨a, ha⟩
    subst ha
    exact Finset.mem_image.2 ⟨a, mem_Icc_of_mem h hP (Finset.mem_singleton_self a), rfl⟩
  · intro hP
    rcases Finset.mem_image.1 hP with ⟨x, hx, hPx⟩
    rcases exists_mem h hx with ⟨p, hp, hxp⟩
    rcases Finset.card_eq_one.1 (h1 p hp) with ⟨a, ha⟩
    have hxa : x = a := by
      rw [ha] at hxp
      exact Finset.mem_singleton.1 hxp
    rw [← hPx, hxa, ← ha]
    exact hp

end PartitionOf

namespace Chain

/-- The split depth of a pair, characterised by `samePartAt`: it is the first
depth at which the pair's parts separate.  `samePartAt` depends only on the
partition sets, enabling transfer between chains with equal partitions. -/
theorem WF.splitDepth_iff_samePart {c : Chain} {n : ℕ} (h : c.WF n) {i j e : ℕ}
    (hi : i ∈ Finset.Icc 1 n) (hj : j ∈ Finset.Icc 1 n) (hij : i ≠ j)
    (he1 : 1 ≤ e) (he2 : e < n) :
    c.splitDepth? i j = some e ↔ (c.samePartAt (e-1) i j ∧ ¬ c.samePartAt e i j) := by
  constructor
  · intro hsd
    refine ⟨(h.samePart_iff_depth_gt hsd (by omega)).2 (by omega), ?_⟩
    intro hcon
    have := (h.samePart_iff_depth_gt hsd he2).1 hcon
    omega
  · rintro ⟨hsame, hnot⟩
    rcases h.splitDepth_exists hi hj hij with ⟨s, hs, hs1, hs2⟩
    have h1 : e - 1 < s := (h.samePart_iff_depth_gt hs (by omega)).1 hsame
    have h2 : ¬ e < s := fun hlt => hnot ((h.samePart_iff_depth_gt hs he2).2 hlt)
    have hse : s = e := by omega
    rw [hs, hse]

/-- The partition one step above the split depth of a pair is obtained by
merging the two parts that hold `i` and `j` there. -/
theorem WF.partsSet_pred {c : Chain} {n : ℕ} (h : c.WF n) {dd i j : ℕ}
    {Pi Pj : PartSet}
    (hsd : c.splitDepth? i j = some dd) (hdn : dd < n)
    (hPi : Pi ∈ (c.entry dd).partsSet) (hiPi : i ∈ Pi)
    (hPj : Pj ∈ (c.entry dd).partsSet) (hjPj : j ∈ Pj) :
    (c.entry (dd-1)).partsSet
      = insert (Pi ∪ Pj) (((c.entry dd).partsSet.erase Pi).erase Pj) := by
  rcases splitDepth?_eq_some_iff.1 hsd with ⟨hlen, hsp, hall⟩
  have hd1 : 1 ≤ dd := (h.mem_Icc_of_splits hdn hsp).2.2.2
  have hstep := h.step (d := dd - 1) (by omega)
  rw [Nat.sub_add_cancel hd1] at hstep
  rcases hstep with ⟨parent, b, l, r, he, hb, hl, hr, hdisj, hu, hset⟩
  have hPO : PartitionOf (c.entry (dd-1)).partsSet n := h.partitionOf (by omega)
  have hPOd : PartitionOf (c.entry dd).partsSet n := h.partitionOf hdn
  have hlmem : l ∈ (c.entry dd).partsSet := by
    rw [hset]
    exact Finset.mem_insert_self _ _
  have hrmem : r ∈ (c.entry dd).partsSet := by
    rw [hset]
    exact Finset.mem_insert.2 (Or.inr (Finset.mem_insert_self _ _))
  rcases PartitionOf.side_facts hPO hb hl hr hdisj hu with
    ⟨hlb, hrb, hlnb, hrnb, hlr, hlS, hrS⟩
  have hij' : (i ∈ l ∧ j ∈ r) ∨ (j ∈ l ∧ i ∈ r) := by
    rw [he] at hsp
    simpa [Partition.splits] using hsp
  have hlnotX : l ∉ (c.entry (dd-1)).partsSet.erase b := fun hm =>
    hlS (Finset.mem_of_mem_erase hm)
  have hrnotX : r ∉ (c.entry (dd-1)).partsSet.erase b := fun hm =>
    hrS (Finset.mem_of_mem_erase hm)
  have hlnotr : l ∉ insert r ((c.entry (dd-1)).partsSet.erase b) := by
    intro hmem
    rcases Finset.mem_insert.1 hmem with hm | hm
    · exact hlr hm
    · exact hlnotX hm
  have hrnotl : r ∉ insert l ((c.entry (dd-1)).partsSet.erase b) := by
    intro hmem
    rcases Finset.mem_insert.1 hmem with hm | hm
    · exact hlr hm.symm
    · exact hrnotX hm
  rcases hij' with ⟨hil, hjr⟩ | ⟨hjl, hir⟩
  · have hPil : Pi = l := PartitionOf.part_eq hPOd hPi hlmem hiPi hil
    have hPjr : Pj = r := PartitionOf.part_eq hPOd hPj hrmem hjPj hjr
    rw [hPil, hPjr, hset, Finset.erase_insert hlnotr, Finset.erase_insert hrnotX,
      hu, Finset.insert_erase hb]
  · have hPir : Pi = r := PartitionOf.part_eq hPOd hPi hrmem hiPi hir
    have hPjl : Pj = l := PartitionOf.part_eq hPOd hPj hlmem hjPj hjl
    rw [hPir, hPjl, Finset.union_comm r l, hset, Finset.Insert.comm,
      Finset.erase_insert hrnotl, Finset.erase_insert hlnotX, hu,
      Finset.insert_erase hb]

end Chain

namespace ChainPath

theorem lastChain_append (p : List Chain) (x : Chain) :
    lastChain (p ++ [x]) = x := by
  simp [lastChain]

theorem range'_succ_one (s m : ℕ) :
    List.range' s (m+1) = s :: List.range' (s+1) m := rfl

theorem push_down_eq (q : List Chain) (e i j : ℕ) :
    push_down q e i j
      = (List.range' ((lastChain q).split_depth i j)
          (e - (lastChain q).split_depth i j)).foldl
          (fun p depth => p ++ [(lastChain p).pushed_down depth i j]) q := rfl

/-- The effect of `__push_down` from the pair's actual split depth `s` to the
target `s + m`: the path stays nonempty, its last chain stays well-formed with
the pair's split depth now at the target, partitions strictly below `s` and at
or above `s + m` are unchanged, and the path grows by `m` chains. -/
theorem push_down_go {n i j : ℕ} : ∀ (m s : ℕ) (q : List Chain), q ≠ [] →
    (lastChain q).WF n → (lastChain q).splitDepth? i j = some s → s + m < n →
    push_down q (s + m) i j ≠ [] ∧
    (lastChain (push_down q (s + m) i j)).WF n ∧
    (lastChain (push_down q (s + m) i j)).splitDepth? i j = some (s + m) ∧
    (∀ k, k < s ∨ s + m ≤ k →
      ((lastChain (push_down q (s + m) i j)).entry k).partsSet
        = ((lastChain q).entry k).partsSet) ∧
    (push_down q (s + m) i j).length = q.length + m := by
  intro m
  induction m with
  | zero =>
    intro s q hne hwf hsd hsn
    have h0 : s + 0 - s = 0 := by omega
    have heq : push_down q (s + 0) i j = q := by
      rw [push_down_eq, Chain.split_depth_eq hsd, h0]
      rfl
    rw [heq]
    exact ⟨hne, hwf, by rw [hsd, Nat.add_zero], fun k _ => rfl, by omega⟩
  | succ m ih =>
    intro s q hne hwf hsd hsn
    have hsp : ((lastChain q).entry s).splits i j = true :=
      (Chain.splitDepth?_eq_some_iff.1 hsd).2.1
    rcases hwf.pushed_down_spec (d := s) (by omega) hsp with ⟨hwf', hsd', hpres'⟩
    have hlast : lastChain (q ++ [(lastChain q).pushed_down s i j])
        = (lastChain q).pushed_down s i j := lastChain_append _ _
    have ha1 : s + (m+1) - s = m + 1 := by omega
    have ha2 : (s+1) + m - (s+1) = m := by omega
    have hstep : push_down q (s + (m+1)) i j
        = push_down (q ++ [(lastChain q).pushed_down s i j]) ((s+1) + m) i j := by
      rw [push_down_eq, push_down_eq, Chain.split_depth_eq hsd, hlast,
        Chain.split_depth_eq hsd', ha1, ha2, range'_succ_one, List.foldl_cons]
    have hih := ih (s+1) (q ++ [(lastChain q).pushed_down s i j]) (by simp)
      (by rw [hlast]; exact hwf') (by rw [hlast]; exact hsd') (by omega)
    rw [hlast] at hih
    rcases hih with ⟨h1, h2, h3, h4, h5⟩
    rw [hstep]
    have harith : s + (m + 1) = (s + 1) + m := by omega
    refine ⟨h1, h2, ?_, ?_, ?_⟩
    · rw [h3, harith]
    · intro k hk
      have hk' : k < s + 1 ∨ (s+1) + m ≤ k := by omega
      rw [h4 k hk']
      rcases hk with hk | hk
      · exact hpres' k (by omega)
      · exact hpres' k (by omega)
    · rw [h5, List.length_append]
      simp only [List.length_cons, List.length_nil]
      omega

/-- `__push_down` to an arbitrary target depth at or above the pair's current
split depth. -/
theorem push_down_spec {n i j dtgt s : ℕ} {q : List Chain} (hne : q ≠ [])
    (hwf : (lastChain q).WF n) (hsd : (lastChain q).splitDepth? i j = some s)
    (hs : s ≤ dtgt) (hd : dtgt < n) :
    push_down q dtgt i j ≠ [] ∧
    (lastChain (push_down q dtgt i j)).WF n ∧
    (lastChain (push_down q dtgt i j)).splitDepth? i j = some dtgt ∧
    (∀ k, k < s ∨ dtgt ≤ k →
      ((lastChain (push_down q dtgt i j)).entry k).partsSet
        = ((lastChain q).entry k).partsSet) ∧
    (push_down q dtgt i j).length = q.length + (dtgt - s) := by
  obtain ⟨m, rfl⟩ : ∃ m, dtgt = s + m := ⟨dtgt - s, by omega⟩
  have h := push_down_go m s q hne hwf hsd hd
  refine ⟨h.1, h.2.1, h.2.2.1, h.2.2.2.1, ?_⟩
  rw [h.2.2.2.2, Nat.add_sub_cancel_left]

/-- When the invariant holds at a target depth of at most 1, the two last
chains are already structurally equal (depth 0 is the trivial partition on both
sides) and the two paths hold at least `n` chains. -/
theorem Inv.low_converged {cp : ChainPath} {n d : ℕ} (hinv : cp.Inv n d) (hd : d ≤ 1) :
    cp.converged = true ∧ n ≤ cp.path1.length + cp.path2.length := by
  obtain ⟨hc1, hne1, hne2, hwf1, hwf2, hsync, hpick, hsize⟩ := hinv
  constructor
  · show chainEqB (lastChain cp.path1) (lastChain cp.path2) = true
    apply Chain.chainEqB_of_partsSet
    · rw [hwf1.length_eq, hwf2.length_eq]
    · intro k hk
      rw [hwf1.length_eq] at hk
      rcases Nat.lt_or_ge k d with hkd | hkd
      · have hk0 : k = 0 := by omega
        subst hk0
        rw [hwf1.entry_zero, hwf2.entry_zero]
      · exact hsync k hkd hk
  · omega

/-- The master induction for `find`'s depth loop: from the invariant at target
depth `d` (with `d < n`), the loop over the remaining depths `d, d-1, ..., 0`
ends in a state whose two last chains are structurally equal and whose two
paths together hold at least `n` chains and stay nonempty; this covers both the
normal exhaustion of the loop and the early `break` on an empty `__next_i_j`. -/
theorem findGo_master {n : ℕ} (d : ℕ) : ∀ cp : ChainPath, d < n → cp.Inv n d →
    (cp.findGo ((List.range (d+1)).reverse)).converged = true ∧
    n ≤ (cp.findGo ((List.range (d+1)).reverse)).path1.length
        + (cp.findGo ((List.range (d+1)).reverse)).path2.length ∧
    (cp.findGo ((List.range (d+1)).reverse)).path1 ≠ [] ∧
    (cp.findGo ((List.range (d+1)).reverse)).path2 ≠ [] := by
  induction d with
  | zero =>
    intro cp hdn hinv
    obtain ⟨hc1, hne1, hne2, hwf1, hwf2, hsync, hpick, hsize⟩ := hinv
    have hnone : cp.next_i_j 0 = none := by
      apply (nextIJ_spec cp 0).1.2
      intro p hp
      have hp' : 1 ≤ p.1 ∧ p.1 < p.2 ∧ p.2 ≤ cp.chain1.length ∧ p ∉ cp.picked ∧
          ((lastChain cp.path1).split_depth p.1 p.2 < 0 ∨
           (lastChain cp.path2).split_depth p.1 p.2 < 0) := hp
      rcases hp'.2.2.2.2 with h' | h' <;> omega
    have hstop : cp.findGo ((List.range (0+1)).reverse) = cp := by
      have hlist : (List.range (0+1)).reverse = [0] := rfl
      rw [hlist, ChainPath.findGo, hnone]
    rw [hstop]
    have h := Inv.low_converged ⟨hc1, hne1, hne2, hwf1, hwf2, hsync, hpick, hsize⟩
      (by omega)
    exact ⟨h.1, h.2, hne1, hne2⟩
  | succ d ih =>
    intro cp hdn hinv
    have hlist : (List.range (d+1+1)).reverse = (d+1) :: (List.range (d+1)).reverse := by
      rw [List.range_succ, List.reverse_append]
      rfl
    obtain ⟨hc1, hne1, hne2, hwf1, hwf2, hsync, hpick, hsize⟩ := hinv
    cases hnext : cp.next_i_j (d+1) with
    | none =>
      have hd0 : d = 0 := by
        by_contra hdne
        have hn3 : 2 < n := by omega
        rcases hwf1.step (d := 0) (by omega) with
          ⟨parent, b, l, r, he1, hb, hl, hr, hdisj, hu, hset⟩
        rcases Finset.nonempty_iff_ne_empty.2 hl with ⟨x, hx⟩
        rcases Finset.nonempty_iff_ne_empty.2 hr with ⟨y, hy⟩
        have key : ∀ a c : ℕ, a < c →
            ((lastChain cp.path1).entry 1).splits a c = true → False := by
          intro a c hac hs
          rcases hwf1.mem_Icc_of_splits (by omega) hs with ⟨hai, hci, hane, _⟩
          have hsd1 : (lastChain cp.path1).splitDepth? a c = some 1 := by
            apply Chain.splitDepth?_eq_some_iff.2
            refine ⟨by rw [hwf1.length_eq]; omega, hs, ?_⟩
            intro e he
            have he0 : e = 0 := by omega
            subst he0
            rw [hwf1.entry_zero]
            rfl
          have hq : cp.qualifies (d+1) (a, c) := by
            refine ⟨(Finset.mem_Icc.1 hai).1, hac, ?_, ?_, Or.inl ?_⟩
            · rw [hc1]
              exact (Finset.mem_Icc.1 hci).2
            · intro hmem
              rcases hpick (a, c) hmem with ⟨e, he1', he2', hsd1', _⟩
              rw [hsd1] at hsd1'
              have h1e : (1:ℕ) = e := Option.some_inj.1 hsd1'
              omega
            · rw [Chain.split_depth_eq hsd1]
              omega
          exact ((nextIJ_spec cp (d+1)).1).1 hnext (a, c) hq
        rcases Nat.lt_trichotomy x y with hxy | hxy | hxy
        · apply key x y hxy
          rw [he1]
          simp only [Partition.splits]
          exact decide_eq_true (Or.inl ⟨hx, hy⟩)
        · subst hxy
          exact absurd hx (Finset.disjoint_right.1 hdisj hy)
        · apply key y x hxy
          rw [he1]
          simp only [Partition.splits]
          exact decide_eq_true (Or.inr ⟨hx, hy⟩)
      subst hd0
      have hstop : cp.findGo ((List.range (0+1+1)).reverse) = cp := by
        rw [hlist, ChainPath.findGo, hnext]
      rw [hstop]
      have h := Inv.low_converged ⟨hc1, hne1, hne2, hwf1, hwf2, hsync, hpick, hsize⟩
        (by omega)
      exact ⟨h.1, h.2, hne1, hne2⟩
    | some pij =>
      obtain ⟨i, j⟩ := pij
      have hq := ((nextIJ_spec cp (d+1)).2.1 i j hnext).1
      have hq' : 1 ≤ i ∧ i < j ∧ j ≤ cp.chain1.length ∧ (i, j) ∉ cp.picked ∧
          ((lastChain cp.path1).split_depth i j < d+1 ∨
           (lastChain cp.path2).split_depth i j < d+1) := hq
      obtain ⟨hi1, hij, hjn', hunp, hdep⟩ := hq'
      rw [hc1] at hjn'
      have hiI : i ∈ Finset.Icc 1 n := Finset.mem_Icc.2 ⟨hi1, by omega⟩
      have hjI : j ∈ Finset.Icc 1 n := Finset.mem_Icc.2 ⟨by omega, hjn'⟩
      have hijne : i ≠ j := by omega
      rcases hwf1.splitDepth_exists hiI hjI hijne with ⟨s1, hsd1, hs11, hs12⟩
      rcases hwf2.splitDepth_exists hiI hjI hijne with ⟨s2, hsd2, hs21, hs22⟩
      have htrans : d+1 < s1 ↔ d+1 < s2 := by
        constructor
        · intro h'
          apply (hwf2.samePart_iff_depth_gt hsd2 hdn).1
          apply (Chain.samePartAt_congr (hsync (d+1) (le_refl _) hdn)).1
          exact (hwf1.samePart_iff_depth_gt hsd1 hdn).2 h'
        · intro h'
          apply (hwf1.samePart_iff_depth_gt hsd1 hdn).1
          apply (Chain.samePartAt_congr (hsync (d+1) (le_refl _) hdn)).2
          exact (hwf2.samePart_iff_depth_gt hsd2 hdn).2 h'
      have hsdep : s1 < d+1 ∨ s2 < d+1 := by
        rcases hdep with h' | h'
        · rw [Chain.split_depth_eq hsd1] at h'
          exact Or.inl h'
        · rw [Chain.split_depth_eq hsd2] at h'
          exact Or.inr h'
      have hs1le : s1 ≤ d+1 := by
        by_contra h'
        have h2' : d+1 < s2 := htrans.1 (by omega)
        omega
      have hs2le : s2 ≤ d+1 := by
        by_contra h'
        have h1' : d+1 < s1 := htrans.2 (by omega)
        omega
      rcases push_down_spec hne1 hwf1 hsd1 hs1le hdn with
        ⟨hp1ne, hp1wf, hp1sd, hp1pres, hp1len⟩
      rcases push_down_spec hne2 hwf2 hsd2 hs2le hdn with
        ⟨hp2ne, hp2wf, hp2sd, hp2pres, hp2len⟩
      have hstep : cp.findGo ((List.range (d+1+1)).reverse)
          = ChainPath.findGo
              { cp with path1 := push_down cp.path1 (d+1) i j,
                        path2 := push_down cp.path2 (d+1) i j,
                        picked := (i, j) :: cp.picked }
              ((List.range (d+1)).reverse) := by
        rw [hlist, ChainPath.findGo, hnext]
      have hinv' : ChainPath.Inv
          { cp with path1 := push_down cp.path1 (d+1) i j,
                    path2 := push_down cp.path2 (d+1) i j,
                    picked := (i, j) :: cp.picked } n d := by
        refine ⟨hc1, hp1ne, hp2ne, hp1wf, hp2wf, ?_, ?_, ?_⟩
        · show ∀ k, d ≤ k → k < n →
            ((lastChain (push_down cp.path1 (d+1) i j)).entry k).partsSet
              = ((lastChain (push_down cp.path2 (d+1) i j)).entry k).partsSet
          intro k hkd hkn
          rcases Nat.lt_or_ge k (d+1) with hk1 | hk1
          · have hkd' : k = d := by omega
            rw [hkd']
            have hsyncd1 :
                ((lastChain (push_down cp.path1 (d+1) i j)).entry (d+1)).partsSet
                  = ((lastChain (push_down cp.path2 (d+1) i j)).entry (d+1)).partsSet := by
              rw [hp1pres (d+1) (Or.inr (le_refl _)), hp2pres (d+1) (Or.inr (le_refl _))]
              exact hsync (d+1) (le_refl _) hdn
            rcases PartitionOf.exists_mem (hp1wf.partitionOf hdn) hiI with ⟨Pi, hPi, hiPi⟩
            rcases PartitionOf.exists_mem (hp1wf.partitionOf hdn) hjI with ⟨Pj, hPj, hjPj⟩
            have hm1 : ((lastChain (push_down cp.path1 (d+1) i j)).entry d).partsSet
                = insert (Pi ∪ Pj)
                    ((((lastChain (push_down cp.path1 (d+1) i j)).entry (d+1)).partsSet.erase
                      Pi).erase Pj) :=
              hp1wf.partsSet_pred hp1sd hdn hPi hiPi hPj hjPj
            have hm2 : ((lastChain (push_down cp.path2 (d+1) i j)).entry d).partsSet
                = insert (Pi ∪ Pj)
                    ((((lastChain (push_down cp.path2 (d+1) i j)).entry (d+1)).partsSet.erase
                      Pi).erase Pj) :=
              hp2wf.partsSet_pred hp2sd hdn (hsyncd1 ▸ hPi) hiPi (hsyncd1 ▸ hPj) hjPj
            rw [hm1, hm2, hsyncd1]
          · rw [hp1pres k (Or.inr hk1), hp2pres k (Or.inr hk1)]
            exact hsync k hk1 hkn
        · show ∀ p, p ∈ (i, j) :: cp.picked → ∃ e, d < e ∧ e < n ∧
            (lastChain (push_down cp.path1 (d+1) i j)).splitDepth? p.1 p.2 = some e ∧
            (lastChain (push_down cp.path2 (d+1) i j)).splitDepth? p.1 p.2 = some e
          intro p hp
          rcases List.mem_cons.1 hp with hp | hp
          · subst hp
            exact ⟨d+1, by omega, hdn, hp1sd, hp2sd⟩
          · rcases hpick p hp with ⟨e, hpe1, hpe2, hsdo1, hsdo2⟩
            have hsp1 := (Chain.splitDepth?_eq_some_iff.1 hsdo1).2.1
            rcases hwf1.mem_Icc_of_splits hpe2 hsp1 with ⟨hpa, hpb, hpne, hpge1⟩
            have hiff1 := hwf1.splitDepth_iff_samePart hpa hpb hpne hpge1 hpe2
            have hiff1' := hp1wf.splitDepth_iff_samePart hpa hpb hpne hpge1 hpe2
            have hiff2 := hwf2.splitDepth_iff_samePart hpa hpb hpne hpge1 hpe2
            have hiff2' := hp2wf.splitDepth_iff_samePart hpa hpb hpne hpge1 hpe2
            rcases hiff1.1 hsdo1 with ⟨hsame1, hnot1⟩
            rcases hiff2.1 hsdo2 with ⟨hsame2, hnot2⟩
            refine ⟨e, by omega, hpe2, ?_, ?_⟩
            · apply hiff1'.2
              refine ⟨?_, ?_⟩
              · exact (Chain.samePartAt_congr (hp1pres (e-1) (Or.inr (by omega)))).2 hsame1
              · intro hcon
                exact hnot1 ((Chain.samePartAt_congr (hp1pres e (Or.inr (by omega)))).1 hcon)
            · apply hiff2'.2
              refine ⟨?_, ?_⟩
              · exact (Chain.samePartAt_congr (hp2pres (e-1) (Or.inr (by omega)))).2 hsame2
              · intro hcon
                exact hnot2 ((Chain.samePartAt_congr (hp2pres e (Or.inr (by omega)))).1 hcon)
        · show 2 + (n - 1 - d) ≤ (push_down cp.path1 (d+1) i j).length
              + (push_down cp.path2 (d+1) i j).length
          rw [hp1len, hp2len]
          omega
      rw [hstep]
      exact ih _ (by omega) hinv'

/-- The invariant holds at the initial state for the loop's first target depth
`n - 1`: both paths hold one well-formed chain, whose top partitions (all
singletons) coincide, and no pair is picked. -/
theorem init_inv {c1 c2 : Chain} {m : ℕ} (h1 : c1.WF (m+1)) (h2 : c2.WF (m+1)) :
    (ChainPath.init c1 c2).Inv (m+1) m := by
  refine ⟨h1.length_eq, ?_, ?_, h1, h2, ?_, ?_, ?_⟩
  · show [c1] ≠ []
    simp
  · show [c2] ≠ []
    simp
  · intro k hk1 hk2
    have hk : k = m := by omega
    rw [hk]
    show (c1.entry m).partsSet = (c2.entry m).partsSet
    have hs1 : (c1.entry m).partsSet
        = (Finset.Icc 1 (m+1)).image (fun x => ({x} : PartSet)) := by
      apply PartitionOf.eq_singletons (h1.partitionOf (by omega))
      exact h1.top_singletons
    have hs2 : (c2.entry m).partsSet
        = (Finset.Icc 1 (m+1)).image (fun x => ({x} : PartSet)) := by
      apply PartitionOf.eq_singletons (h2.partitionOf (by omega))
      exact h2.top_singletons
    rw [hs1, hs2]
  · intro p hp
    exact absurd hp (List.not_mem_nil p)
  · show 2 + (m + 1 - 1 - m) ≤ 2
    omega

/-- `find` unfolded: the loop over target depths `n-1, ..., 0`. -/
theorem find_eq_findGo {c1 c2 : Chain} {m : ℕ} (h1 : c1.WF (m+1)) :
    (ChainPath.init c1 c2).find
      = ChainPath.findGo (ChainPath.init c1 c2) ((List.range (m+1)).reverse) := by
  show ChainPath.findGo { ChainPath.init c1 c2 with picked := [] }
      ((List.range (ChainPath.init c1 c2).chain1.length).reverse) = _
  have hlen : (ChainPath.init c1 c2).chain1.length = m + 1 := h1.length_eq
  rw [hlen]
  rfl

end ChainPath

/-- C2: for every pair of well-formed maximal chains of size `n`,
`ChainPath(chain1, chain2).find()` runs to completion (the model is total) and
the final convergence assertion holds: the last chain of `path1` is
structurally equal to the last chain of `path2`.  Proof: the loop invariant —
the two last chains agree from the current target depth upward, and every
picked pair splits at the same depth above it in both — is preserved by each
iteration (each selected pair has its split depth at most the target in both
chains, and pushing merges the same two parts on both sides), and an early
`break` can only happen at target depth ≤ 1, where the chains already agree
everywhere. -/
theorem C2_find_converges (c1 c2 : Chain) (n : ℕ) (h1 : c1.WF n) (h2 : c2.WF n) :
    (ChainPath.init c1 c2).find.converged = true := by
  have hn := h1.n_pos
  obtain ⟨m, rfl⟩ : ∃ m, n = m + 1 := ⟨n - 1, by omega⟩
  rw [ChainPath.find_eq_findGo h1]
  exact (ChainPath.findGo_master m (ChainPath.init c1 c2) (by omega)
    (ChainPath.init_inv h1 h2)).1

/-- C2 witness at a concrete input (the two distinct well-formed chains of
size 4). -/
theorem C2_find_converges_witness :
    chainCat4.WF 4 ∧ chainBal4.WF 4 ∧
    (ChainPath.init chainCat4 chainBal4).find.converged = true :=
  ⟨by decide, by decide,
    C2_find_converges chainCat4 chainBal4 4 (by decide) (by decide)⟩

/-- C8 counterexample: for the two well-formed chains of size 4
`1234 -> 1|234 -> 1|2|34 -> 1|2|3|4` and `1234 -> 12|34 -> 12|3|4 -> 1|2|3|4`,
`find()` returns a path of 3 chains, i.e. 2 edges, strictly below
`min_dist_lb(4) = (4-2)*(4-1)//2 = 3`: the spec's claimed lower bound on the
found path's edge count is false. -/
theorem C8_min_dist_counterexample :
    (ChainPath.init chainCat4 chainBal4).find.path.length = 3 ∧
    Chain.min_dist_lb 4 = 3 ∧
    ¬ ((3:ℤ) ≤ (3:ℤ) - 1) := by
  refine ⟨by decide, by decide, by decide⟩

/-- C8 (amended): the guaranteed lower bound on the edge count of the found
path is `n - 2`, not `(n-2)(n-1)/2`: the two paths together hold at least `n`
chains when the loop ends (each iteration adds at least one chain and the loop
cannot break above target depth 1), so `path()` — which has length
`|path1| + |path2| - 1` — has at least `n - 1` chains and `n - 2` edges.
`min_dist_lb` is merely reported by the `__main__` driver, never enforced, and
`find()'s` result can fall short of it (see the counterexample). -/
theorem C8_edge_bound_amended (c1 c2 : Chain) (n : ℕ) (h1 : c1.WF n) (h2 : c2.WF n) :
    n - 2 ≤ (ChainPath.init c1 c2).find.path.length - 1 := by
  have hn := h1.n_pos
  obtain ⟨m, rfl⟩ : ∃ m, n = m + 1 := ⟨n - 1, by omega⟩
  rw [ChainPath.find_eq_findGo h1]
  obtain ⟨_, hsz, _, hne2'⟩ := ChainPath.findGo_master m (ChainPath.init c1 c2)
    (by omega) (ChainPath.init_inv h1 h2)
  generalize hF : ChainPath.findGo (ChainPath.init c1 c2) ((List.range (m+1)).reverse) = F
    at hsz hne2' ⊢
  have hplen : F.path.length = F.path1.length + (F.path2.length - 1) := by
    show (F.path1 ++ F.path2.dropLast.reverse).length = _
    rw [List.length_append, List.length_reverse, List.length_dropLast]
  have hp2pos : 1 ≤ F.path2.length := List.length_pos.2 hne2'
  omega

/-- C8 amended witness at a concrete input: for the size-4 pair the guarantee
`n - 2 = 2` is met (with equality). -/
theorem C8_edge_bound_amended_witness :
    chainCat4.WF 4 ∧ chainBal4.WF 4 ∧
    4 - 2 ≤ (ChainPath.init chainCat4 chainBal4).find.path.length - 1 :=
  ⟨by decide, by decide,
    C8_edge_bound_amended chainCat4 chainBal4 4 (by decide) (by decide)⟩

/-! ## The string round trip (C5): `split`/`join` -/

theorem leadEq_head {a : Char} {as : List Char} {b : Char} {bs : List Char}
    (h : leadEq (a :: as) (b :: bs) = true) : a = b := by
  have h' := (Bool.and_eq_true _ _ ▸ h :
    (a == b) = true ∧ leadEq as bs = true)
  exact eq_of_beq h'.1

theorem leadEq_append : ∀ (xs ys : List Char), leadEq xs (xs ++ ys) = true := by
  intro xs
  induction xs with
  | nil => intro ys; rfl
  | cons a as ih =>
    intro ys
    show (a == a && leadEq as (as ++ ys)) = true
    rw [beq_self_eq_true, ih ys]
    rfl

theorem splitOnSep_nil (sep : List Char) : splitOnSep sep [] = [[]] := by
  rw [splitOnSep]

theorem splitOnSep_lead {sep : List Char} {ch : Char} {rest : List Char}
    (h : leadEq sep (ch :: rest) = true ∧ sep ≠ []) :
    splitOnSep sep (ch :: rest) = [] :: splitOnSep sep ((ch :: rest).drop sep.length) := by
  rw [splitOnSep, dif_pos h]

theorem splitOnSep_not_lead {sep : List Char} {ch : Char} {rest : List Char}
    (h : ¬ (leadEq sep (ch :: rest) = true ∧ sep ≠ [])) :
    splitOnSep sep (ch :: rest)
      = match splitOnSep sep rest with
        | [] => [[ch]]
        | hd :: tl => (ch :: hd) :: tl := by
  rw [splitOnSep, dif_neg h]

/-- A character free of the separator's characters cannot start a separator
occurrence. -/
theorem not_lead_of_not_mem {sep : List Char} {ch : Char} {rest : List Char}
    (hsep : sep ≠ []) (hch : ch ∉ sep) :
    ¬ (leadEq sep (ch :: rest) = true ∧ sep ≠ []) := by
  rintro ⟨hlead, -⟩
  cases sep with
  | nil => exact hsep rfl
  | cons a as =>
    have ha : a = ch := leadEq_head hlead
    exact hch (ha ▸ List.mem_cons_self a as)

/-- Splitting a separator-free segment yields that one segment. -/
theorem splitOnSep_single {sep : List Char} (hsep : sep ≠ []) :
    ∀ seg : List Char, (∀ ch ∈ seg, ch ∉ sep) → splitOnSep sep seg = [seg] := by
  intro seg
  induction seg with
  | nil => intro _; exact splitOnSep_nil sep
  | cons ch cs ih =>
    intro h
    rw [splitOnSep_not_lead (not_lead_of_not_mem hsep (h ch (List.mem_cons_self _ _))),
      ih (fun x hx => h x (List.mem_cons_of_mem _ hx))]

/-- Splitting `seg ++ sep ++ rest` for a separator-free `seg` cuts exactly
after `seg`. -/
theorem splitOnSep_append {sep : List Char} (hsep : sep ≠ []) :
    ∀ (seg rest : List Char), (∀ ch ∈ seg, ch ∉ sep) →
      splitOnSep sep (seg ++ sep ++ rest) = seg :: splitOnSep sep rest := by
  intro seg
  induction seg with
  | nil =>
    intro rest _
    show splitOnSep sep (sep ++ rest) = [] :: splitOnSep sep rest
    cases hs : sep with
    | nil => exact absurd hs hsep
    | cons a as =>
      rw [List.cons_append,
        splitOnSep_lead ⟨by rw [← List.cons_append, ← hs]; exact leadEq_append sep rest,
          by rw [← hs]; exact hsep⟩]
      rw [← List.cons_append, ← hs, List.drop_left]
  | cons ch cs ih =>
    intro rest h
    rw [List.cons_append, List.cons_append,
      splitOnSep_not_lead (not_lead_of_not_mem hsep (h ch (List.mem_cons_self _ _))),
      ih rest (fun x hx => h x (List.mem_cons_of_mem _ hx))]

/-- `split` inverts `join` on nonempty lists of separator-free segments. -/
theorem splitOnSep_joinSep {sep : List Char} (hsep : sep ≠ []) :
    ∀ segs : List (List Char), segs ≠ [] →
      (∀ seg ∈ segs, ∀ ch ∈ seg, ch ∉ sep) →
      splitOnSep sep (joinSep sep segs) = segs := by
  intro segs
  induction segs with
  | nil => intro h _; exact absurd rfl h
  | cons x xs ih =>
    intro _ hchars
    cases xs with
    | nil =>
      show splitOnSep sep x = [x]
      exact splitOnSep_single hsep x (hchars x (List.mem_cons_self _ _))
    | cons y t =>
      show splitOnSep sep (x ++ sep ++ joinSep sep (y :: t)) = x :: y :: t
      rw [splitOnSep_append hsep x _ (hchars x (List.mem_cons_self _ _)),
        ih (by simp) (fun seg hs => hchars seg (List.mem_cons_of_mem _ hs))]

/-- Every character of `join` comes from a segment or the separator. -/
theorem mem_joinSep {sep : List Char} {ch : Char} :
    ∀ {segs : List (List Char)}, ch ∈ joinSep sep segs →
      ch ∈ sep ∨ ∃ seg ∈ segs, ch ∈ seg := by
  intro segs
  induction segs with
  | nil => intro h; exact absurd h (List.not_mem_nil ch)
  | cons x xs ih =>
    intro h
    cases xs with
    | nil => exact Or.inr ⟨x, List.mem_cons_self _ _, h⟩
    | cons y t =>
      have h' : ch ∈ x ++ sep ++ joinSep sep (y :: t) := h
      rcases List.mem_append.1 h' with h1 | h1
      · rcases List.mem_append.1 h1 with h2 | h2
        · exact Or.inr ⟨x, List.mem_cons_self _ _, h2⟩
        · exact Or.inl h2
      · rcases ih h1 with h2 | ⟨seg, hs, hc⟩
        · exact Or.inl h2
        · exact Or.inr ⟨seg, List.mem_cons_of_mem _ hs, hc⟩

/-! ### Digit strings -/

theorem digitChar_toNat {d : ℕ} (h : d < 10) : (digitChar d).toNat = 48 + d := by
  interval_cases d <;> decide

theorem charToDigit_digitChar {d : ℕ} (h : d < 10) : charToDigit (digitChar d) = d := by
  show (digitChar d).toNat - 48 = d
  rw [digitChar_toNat h]
  omega

/-- `int(str(x)) == x`. -/
theorem charsToNat_natToChars (x : ℕ) : charsToNat (natToChars x) = x := by
  show Nat.ofDigits 10
      (((((Nat.digits 10 x).reverse).map digitChar).map charToDigit).reverse) = x
  rw [List.map_map]
  have hmap : ((Nat.digits 10 x).reverse).map (charToDigit ∘ digitChar)
      = (Nat.digits 10 x).reverse := by
    refine (List.map_congr_left ?_).trans (List.map_id _)
    intro d hd
    exact charToDigit_digitChar (Nat.digits_lt_base (by norm_num) (List.mem_reverse.1 hd))
  rw [hmap, List.reverse_reverse, Nat.ofDigits_digits]

theorem natToChars_digits {x : ℕ} {ch : Char} (h : ch ∈ natToChars x) :
    48 ≤ ch.toNat ∧ ch.toNat ≤ 57 := by
  rcases List.mem_map.1 h with ⟨d, hd, hch⟩
  have hlt : d < 10 := Nat.digits_lt_base (by norm_num) (List.mem_reverse.1 hd)
  rw [← hch, digitChar_toNat hlt]
  omega

/-! ### Character classes of the rendered strings -/

theorem renderPart_chars {key : List ℕ} {ch : Char} (h : ch ∈ Partition.renderPart key) :
    (48 ≤ ch.toNat ∧ ch.toNat ≤ 57) ∨ ch = dotChar := by
  rcases mem_joinSep h with h' | ⟨seg, hs, hc⟩
  · rcases List.mem_singleton.1 h' with rfl
    exact Or.inr rfl
  · rcases List.mem_map.1 hs with ⟨d, _, hseg⟩
    exact Or.inl (natToChars_digits (hseg ▸ hc))

theorem reprStr_chars {p : Partition} {ch : Char} (h : ch ∈ p.reprStr) :
    (48 ≤ ch.toNat ∧ ch.toNat ≤ 57) ∨ ch = dotChar ∨ ch = barChar := by
  rcases mem_joinSep h with h' | ⟨seg, hs, hc⟩
  · rcases List.mem_singleton.1 h' with rfl
    exact Or.inr (Or.inr rfl)
  · rcases List.mem_map.1 hs with ⟨key, _, hseg⟩
    rcases renderPart_chars (hseg ▸ hc) with h1 | h1
    · exact Or.inl h1
    · exact Or.inr (Or.inl h1)

theorem reprStr_not_mem_arrow {p : Partition} {ch : Char} (h : ch ∈ p.reprStr) :
    ch ∉ arrowSep := by
  intro hmem
  have hval : ch.toNat = 32 ∨ ch.toNat = 45 ∨ ch.toNat = 62 := by
    rcases (by simpa [arrowSep] using hmem :
        ch = ' ' ∨ ch = '-' ∨ ch = '>' ∨ ch = ' ') with rfl | rfl | rfl | rfl
    · exact Or.inl rfl
    · exact Or.inr (Or.inl rfl)
    · exact Or.inr (Or.inr rfl)
    · exact Or.inl rfl
  rcases reprStr_chars h with ⟨h1, h2⟩ | rfl | rfl
  · omega
  · rcases hval with h' | h' | h' <;> exact absurd h' (by decide)
  · rcases hval with h' | h' | h' <;> exact absurd h' (by decide)

theorem renderPart_not_mem_bar {key : List ℕ} {ch : Char}
    (h : ch ∈ Partition.renderPart key) : ch ∉ [barChar] := by
  intro hmem
  rcases List.mem_singleton.1 hmem with rfl
  rcases renderPart_chars h with ⟨h1, h2⟩ | hdot
  · have : barChar.toNat = 124 := by decide
    omega
  · exact absurd hdot (by decide)

theorem natToChars_not_mem_dot {x : ℕ} {ch : Char} (h : ch ∈ natToChars x) :
    ch ∉ [dotChar] := by
  intro hmem
  rcases List.mem_singleton.1 hmem with rfl
  rcases natToChars_digits h with ⟨h1, h2⟩
  have : dotChar.toNat = 46 := by decide
  omega

/-! ### The part order (`sorted`) -/

theorem listLeB_of_lt {a b : ℕ} (h : a < b) (as bs : List ℕ) :
    listLeB (a :: as) (b :: bs) = true := by
  show (if a < b then true else if b < a then false else listLeB as bs) = true
  rw [if_pos h]

theorem listLeB_of_gt {a b : ℕ} (h : b < a) (as bs : List ℕ) :
    listLeB (a :: as) (b :: bs) = false := by
  show (if a < b then true else if b < a then false else listLeB as bs) = false
  rw [if_neg (by omega), if_pos h]

theorem listLeB_cons_same (a : ℕ) (as bs : List ℕ) :
    listLeB (a :: as) (a :: bs) = listLeB as bs := by
  show (if a < a then true else if a < a then false else listLeB as bs) = listLeB as bs
  rw [if_neg (by omega), if_neg (by omega)]

theorem listLeB_total : ∀ x y : List ℕ, listLeB x y = true ∨ listLeB y x = true := by
  intro x
  induction x with
  | nil => intro y; exact Or.inl rfl
  | cons a as ih =>
    intro y
    cases y with
    | nil => exact Or.inr rfl
    | cons b bs =>
      rcases Nat.lt_trichotomy a b with h | h | h
      · exact Or.inl (listLeB_of_lt h as bs)
      · subst h
        rw [listLeB_cons_same, listLeB_cons_same]
        exact ih bs
      · exact Or.inr (listLeB_of_lt h bs as)

theorem listLeB_antisymm : ∀ x y : List ℕ,
    listLeB x y = true → listLeB y x = true → x = y := by
  intro x
  induction x with
  | nil =>
    intro y _ h2
    cases y with
    | nil => rfl
    | cons b bs => exact absurd h2 (by simp [listLeB])
  | cons a as ih =>
    intro y h1 h2
    cases y with
    | nil => exact absurd h1 (by simp [listLeB])
    | cons b bs =>
      rcases Nat.lt_trichotomy a b with h | h | h
      · rw [listLeB_of_gt h bs as] at h2
        exact absurd h2 (by simp)
      · subst h
        rw [listLeB_cons_same] at h1 h2
        rw [ih bs h1 h2]
      · rw [listLeB_of_gt h as bs] at h1
        exact absurd h1 (by simp)

theorem listLeB_trans : ∀ x y z : List ℕ,
    listLeB x y = true → listLeB y z = true → listLeB x z = true := by
  intro x
  induction x with
  | nil => intro y z _ _; rfl
  | cons a as ih =>
    intro y z h1 h2
    cases y with
    | nil => exact absurd h1 (by simp [listLeB])
    | cons b bs =>
      cases z with
      | nil => exact absurd h2 (by simp [listLeB])
      | cons c cs =>
        rcases Nat.lt_trichotomy a b with hab | hab | hab
        · rcases Nat.lt_trichotomy b c with hbc | hbc | hbc
          · exact listLeB_of_lt (by omega) as cs
          · exact listLeB_of_lt (by omega) as cs
          · rw [listLeB_of_gt hbc bs cs] at h2
            exact absurd h2 (by simp)
        · subst hab
          rcases Nat.lt_trichotomy a c with hbc | hbc | hbc
          · exact listLeB_of_lt hbc as cs
          · subst hbc
            rw [listLeB_cons_same] at h1 h2 ⊢
            exact ih bs cs h1 h2
          · rw [listLeB_of_gt hbc bs cs] at h2
            exact absurd h2 (by simp)
        · rw [listLeB_of_gt hab as bs] at h1
          exact absurd h1 (by simp)

/-- `sorted` is determined by the multiset of keys: permuted inputs sort to the
same list. -/
theorem insSort_eq_of_perm {l l' : List (List ℕ)} (h : List.Perm l l') :
    List.insertionSort (fun x y => listLeB x y = true) l
      = List.insertionSort (fun x y => listLeB x y = true) l' := by
  haveI ht : IsTotal (List ℕ) (fun x y => listLeB x y = true) := ⟨listLeB_total⟩
  haveI htr : IsTrans (List ℕ) (fun x y => listLeB x y = true) := ⟨listLeB_trans⟩
  haveI ha : IsAntisymm (List ℕ) (fun x y => listLeB x y = true) := ⟨listLeB_antisymm⟩
  have hperm : List.Perm (List.insertionSort (fun x y => listLeB x y = true) l)
      (List.insertionSort (fun x y => listLeB x y = true) l') :=
    (List.perm_insertionSort _ l).trans (h.trans (List.perm_insertionSort _ l').symm)
  exact List.eq_of_perm_of_sorted hperm
    (List.sorted_insertionSort _ l) (List.sorted_insertionSort _ l')

/-! ### The parsed part lists -/

theorem parsedList_perm (p : Partition) : List.Perm (Partition.parsedList p) p.parts := by
  have h1 : List.Perm (Partition.partitionKeys p) (p.parts.map Partition.partKey) :=
    List.perm_insertionSort _ _
  have h2 : List.Perm (Partition.parsedList p)
      ((p.parts.map Partition.partKey).map List.toFinset) := h1.map _
  have h3 : (p.parts.map Partition.partKey).map List.toFinset = p.parts := by
    rw [List.map_map]
    refine (List.map_congr_left ?_).trans (List.map_id _)
    intro q _
    exact Finset.sort_toFinset _ q
  rw [h3] at h2
  exact h2

theorem parsedList_nodup {p : Partition} (h : p.parts.Nodup) :
    (Partition.parsedList p).Nodup := ((parsedList_perm p).nodup_iff).2 h

theorem parsedList_toFinset (p : Partition) :
    (Partition.parsedList p).toFinset = p.partsSet :=
  List.toFinset_eq_of_perm _ _ (parsedList_perm p)

theorem partitionKeys_ne_nil {p : Partition} (h : p.parts ≠ []) :
    Partition.partitionKeys p ≠ [] := by
  intro hcon
  have hlen : (Partition.partitionKeys p).length = p.parts.length := by
    show (List.insertionSort (fun x y => listLeB x y = true)
      (p.parts.map Partition.partKey)).length = _
    rw [(List.perm_insertionSort _ _).length_eq, List.length_map]
  rw [hcon] at hlen
  exact h (List.length_eq_zero.1 hlen.symm)

theorem mem_partitionKeys_ne_nil {p : Partition} (hq : ∀ q ∈ p.parts, q ≠ ∅) :
    ∀ key ∈ Partition.partitionKeys p, key ≠ [] := by
  intro key hk hcon
  have hmem : key ∈ p.parts.map Partition.partKey :=
    (List.perm_insertionSort _ _).mem_iff.1 hk
  rcases List.mem_map.1 hmem with ⟨q, hqm, hkey⟩
  have hcard : q.card = 0 := by
    have hlen := Finset.length_sort (α := ℕ) (· ≤ ·) (s := q)
    rw [show Finset.sort (· ≤ ·) q = key from hkey, hcon] at hlen
    simpa using hlen.symm
  exact hq q hqm (Finset.card_eq_zero.1 hcard)

/-! ### Splitting the rendered strings back apart -/

theorem parts_ne_nil {l : List PartSet} {n : ℕ} (h : PartsValid l n) (hn : 1 ≤ n) :
    l ≠ [] := by
  intro hcon
  have hbi := h.2.2.2
  rw [hcon] at hbi
  have h1 : (1:ℕ) ∈ Finset.Icc 1 n := Finset.mem_Icc.2 ⟨le_refl 1, hn⟩
  rw [← hbi] at h1
  simp at h1

theorem parts_mem_ne_empty {l : List PartSet} {n : ℕ} (h : PartsValid l n) :
    ∀ q ∈ l, q ≠ ∅ := fun q hql => h.2.1 q (List.mem_toFinset.2 hql)

theorem reprStr_split_bar {p : Partition} (hne : p.parts ≠ []) :
    splitOnSep [barChar] p.reprStr
      = (Partition.partitionKeys p).map Partition.renderPart := by
  show splitOnSep [barChar]
      (joinSep [barChar] ((Partition.partitionKeys p).map Partition.renderPart)) = _
  apply splitOnSep_joinSep (by simp)
  · intro hcon
    exact partitionKeys_ne_nil hne (List.map_eq_nil.1 hcon)
  · intro seg hs ch hc
    rcases List.mem_map.1 hs with ⟨key, _, hseg⟩
    exact renderPart_not_mem_bar (hseg ▸ hc)

theorem renderPart_split_dot {key : List ℕ} (hne : key ≠ []) :
    splitOnSep [dotChar] (Partition.renderPart key) = key.map natToChars := by
  show splitOnSep [dotChar] (joinSep [dotChar] (key.map natToChars)) = key.map natToChars
  apply splitOnSep_joinSep (by simp)
  · intro hcon
    exact hne (List.map_eq_nil.1 hcon)
  · intro seg hs ch hc
    rcases List.mem_map.1 hs with ⟨d, _, hseg⟩
    exact natToChars_not_mem_dot (hseg ▸ hc)

theorem reprStr_split_arrow {c : Chain} (hne : c ≠ []) :
    splitOnSep arrowSep c.reprStr = c.map Partition.reprStr := by
  show splitOnSep arrowSep (joinSep arrowSep (c.map Partition.reprStr)) = _
  apply splitOnSep_joinSep (by simp [arrowSep])
  · intro hcon
    exact hne (List.map_eq_nil.1 hcon)
  · intro seg hs ch hc
    rcases List.mem_map.1 hs with ⟨p, _, hseg⟩
    exact reprStr_not_mem_arrow (hseg ▸ hc)

/-- Parsing one rendered partition recovers its part sets (in rendered order). -/
theorem parse_reprStr {p : Partition} (hne : p.parts ≠ []) (hq : ∀ q ∈ p.parts, q ≠ ∅) :
    (splitOnSep [barChar] p.reprStr).map
      (fun partStr => ((splitOnSep [dotChar] partStr).map charsToNat).toFinset)
      = Partition.parsedList p := by
  rw [reprStr_split_bar hne, List.map_map]
  show (Partition.partitionKeys p).map _ = (Partition.partitionKeys p).map List.toFinset
  apply List.map_congr_left
  intro key hk
  show ((splitOnSep [dotChar] (Partition.renderPart key)).map charsToNat).toFinset
    = key.toFinset
  rw [renderPart_split_dot (mem_partitionKeys_ne_nil hq key hk), List.map_map]
  congr 1
  refine (List.map_congr_left ?_).trans (List.map_id _)
  intro d _
  exact charsToNat_natToChars d

/-- Parsing the canonical rendering of a well-formed chain recovers, for every
entry, its part sets. -/
theorem parse_reprChain {c : Chain} {n : ℕ} (hwf : c.WF n) :
    (splitOnSep arrowSep c.reprStr).map (fun pstr =>
      (splitOnSep [barChar] pstr).map fun partStr =>
        ((splitOnSep [dotChar] partStr).map charsToNat).toFinset)
      = c.map Partition.parsedList := by
  have hn := hwf.n_pos
  have hcne : c ≠ [] := by
    intro hcon
    have := hwf.length_eq
    rw [hcon] at this
    simp at this
    omega
  rw [reprStr_split_arrow hcne, List.map_map]
  apply List.map_congr_left
  intro p hp
  rcases List.mem_iff_get?.1 hp with ⟨k, hk⟩
  have hklen : k < c.length := by
    by_contra hcon
    rw [List.get?_eq_none.2 (by omega)] at hk
    exact absurd hk (by simp)
  have hpe : c.entry k = p := Chain.entry_eq_of_get? hk
  have hval : PartsValid p.parts n := by
    rw [← hpe]
    exact hwf.partsValid (by rw [← hwf.length_eq]; exact hklen)
  exact parse_reprStr (parts_ne_nil hval hn) (parts_mem_ne_empty hval)

/-! ### Reconstructing the splits from consecutive part-set differences -/

/-- One chain step in terms of part-set differences: the step from depth `d` to
`d+1` removes exactly the part `b` and adds exactly the two sides `l`, `r`. -/
theorem Chain.WF.step_diffs {c : Chain} {n : ℕ} (h : c.WF n) {d : ℕ} (hd : d + 1 < n) :
    ∃ b l r, l ≠ r ∧ l ≠ ∅ ∧ r ≠ ∅ ∧ Disjoint l r ∧ l ∪ r = b ∧
      b ∈ (c.entry d).partsSet ∧
      (c.entry d).partsSet \ (c.entry (d+1)).partsSet = {b} ∧
      (c.entry (d+1)).partsSet \ (c.entry d).partsSet = {l, r} ∧
      (c.entry (d+1)).partsSet = insert l (insert r ((c.entry d).partsSet.erase b)) := by
  rcases h.step hd with ⟨parent, b, l, r, he, hb, hl, hr, hdisj, hu, hset⟩
  have hPO : PartitionOf (c.entry d).partsSet n := h.partitionOf (by omega)
  rcases PartitionOf.side_facts hPO hb hl hr hdisj hu with
    ⟨hlb, hrb, hlnb, hrnb, hlr, hlS, hrS⟩
  refine ⟨b, l, r, hlr, hl, hr, hdisj, hu, hb, ?_, ?_, hset⟩
  · ext q
    simp only [Finset.mem_sdiff, Finset.mem_singleton]
    constructor
    · rintro ⟨hq1, hq2⟩
      by_contra hqb
      apply hq2
      rw [hset]
      exact Finset.mem_insert.2 (Or.inr (Finset.mem_insert.2 (Or.inr
        (Finset.mem_erase.2 ⟨hqb, hq1⟩))))
    · rintro rfl
      refine ⟨hb, ?_⟩
      rw [hset]
      intro hmem
      rcases Finset.mem_insert.1 hmem with h' | h'
      · exact hlnb h'.symm
      rcases Finset.mem_insert.1 h' with h'' | h''
      · exact hrnb h''.symm
      · exact (Finset.mem_erase.1 h'').1 rfl
  · ext q
    simp only [Finset.mem_sdiff, Finset.mem_insert, Finset.mem_singleton]
    constructor
    · rintro ⟨hq1, hq2⟩
      rw [hset] at hq1
      rcases Finset.mem_insert.1 hq1 with h' | h'
      · exact Or.inl h'
      rcases Finset.mem_insert.1 h' with h'' | h''
      · exact Or.inr h''
      · exact absurd (Finset.mem_of_mem_erase h'') hq2
    · rintro (rfl | rfl)
      · refine ⟨?_, hlS⟩
        rw [hset]
        exact Finset.mem_insert_self _ _
      · refine ⟨?_, hrS⟩
        rw [hset]
        exact Finset.mem_insert.2 (Or.inr (Finset.mem_insert_self _ _))

theorem list_eq_singleton {L : List PartSet} {b : PartSet} (hnd : L.Nodup)
    (h : L.toFinset = {b}) : L = [b] := by
  cases L with
  | nil =>
    exfalso
    have hmem : b ∈ ({b} : Finset PartSet) := Finset.mem_singleton_self b
    rw [← h] at hmem
    simp at hmem
  | cons x t =>
    have hx : x = b := by
      have hmem : x ∈ (x :: t).toFinset := by simp
      rw [h] at hmem
      exact Finset.mem_singleton.1 hmem
    subst hx
    cases t with
    | nil => rfl
    | cons y t' =>
      exfalso
      have hy : y ∈ (x :: y :: t').toFinset := by simp
      rw [h] at hy
      have hyx : y = x := Finset.mem_singleton.1 hy
      exact (List.nodup_cons.1 hnd).1 (by rw [← hyx]; exact List.mem_cons_self y t')

theorem list_eq_pair {L : List PartSet} {l r : PartSet} (hnd : L.Nodup) (hlr : l ≠ r)
    (h : L.toFinset = {l, r}) : L = [l, r] ∨ L = [r, l] := by
  have hlen : L.length = 2 := by
    rw [← List.toFinset_card_of_nodup hnd, h,
      Finset.card_insert_of_not_mem (by simpa using hlr), Finset.card_singleton]
  rcases L with _ | ⟨x, _ | ⟨y, _ | ⟨z, t⟩⟩⟩
  · exact absurd hlen (by simp)
  · exact absurd hlen (by simp)
  · have hx : x ∈ ({l, r} : Finset PartSet) := by
      rw [← h]
      simp
    have hy : y ∈ ({l, r} : Finset PartSet) := by
      rw [← h]
      simp
    have hxy : x ≠ y := by
      intro hcon
      exact (List.nodup_cons.1 hnd).1 (by rw [hcon]; exact List.mem_cons_self y [])
    rcases Finset.mem_insert.1 hx with rfl | hx'
    · rcases Finset.mem_insert.1 hy with rfl | hy'
      · exact absurd rfl hxy
      · rw [Finset.mem_singleton.1 hy']
        exact Or.inl rfl
    · rw [Finset.mem_singleton.1 hx']
      rcases Finset.mem_insert.1 hy with rfl | hy'
      · exact Or.inr rfl
      · rw [Finset.mem_singleton.1 hy'] at hxy
        rw [Finset.mem_singleton.1 hx'] at hxy
        exact absurd rfl hxy
  · exfalso
    simp only [List.length_cons] at hlen
    omega

theorem filter_not_mem_toFinset (L : List PartSet) (S : Finset PartSet) :
    (L.filter (fun x => decide (x ∉ S))).toFinset = L.toFinset \ S := by
  ext q
  simp [List.mem_filter]

/-- Correctness of the reconstruction loop on the parsed part lists of a
well-formed chain: it succeeds and rebuilds, step by step, partitions with
valid part lists carrying exactly the original part sets. -/
theorem buildSplits_go {n : ℕ} {c : Chain} (hwf : c.WF n) :
    ∀ (m d : ℕ) (prev : Partition), d < n → n - 1 - d = m →
      PartsValid prev.parts n → prev.partsSet = (c.entry d).partsSet →
      ∃ tail, buildSplits prev (Partition.parsedList (c.entry d))
          ((c.drop (d+1)).map Partition.parsedList) = some tail
        ∧ tail.length = m
        ∧ ∀ k, k < m → PartsValid (Chain.entry tail k).parts n
            ∧ (Chain.entry tail k).partsSet = (c.entry (d+1+k)).partsSet := by
  intro m
  induction m with
  | zero =>
    intro d prev hdn hm hval hps
    have hdrop : c.drop (d+1) = [] := List.drop_eq_nil_of_le (by rw [hwf.length_eq]; omega)
    rw [hdrop]
    exact ⟨[], rfl, rfl, fun k hk => absurd hk (by omega)⟩
  | succ m ih =>
    intro d prev hdn hm hval hps
    have hd1n : d + 1 < n := by omega
    have hd1len : d + 1 < c.length := by rw [hwf.length_eq]; omega
    have hdrop : c.drop (d+1) = c.entry (d+1) :: c.drop (d+1+1) := by
      rw [List.drop_eq_getElem_cons hd1len]
      congr 1
      have h1 : c.get? (d+1) = some (c.entry (d+1)) := Chain.entry_get? hd1len
      rw [List.get?_eq_getElem?, List.getElem?_eq_getElem hd1len] at h1
      exact Option.some_inj.1 h1
    rw [hdrop, List.map_cons]
    rcases hwf.step_diffs hd1n with
      ⟨b, l, r, hlr, hl, hr, hdisj, hu, hbmem, hdiffdown, hdiffup, hset⟩
    have hnd1 : (Partition.parsedList (c.entry d)).Nodup :=
      parsedList_nodup (hwf.partsValid (by omega)).1
    have hnd2 : (Partition.parsedList (c.entry (d+1))).Nodup :=
      parsedList_nodup (hwf.partsValid hd1n).1
    have hfB : (Partition.parsedList (c.entry d)).dedup.filter
        (fun x => decide (x ∉ (Partition.parsedList (c.entry (d+1))).toFinset)) = [b] := by
      rw [List.dedup_eq_self.2 hnd1, parsedList_toFinset]
      apply list_eq_singleton (hnd1.filter _)
      rw [filter_not_mem_toFinset, parsedList_toFinset]
      exact hdiffdown
    have hfLR : (Partition.parsedList (c.entry (d+1))).dedup.filter
          (fun x => decide (x ∉ (Partition.parsedList (c.entry d)).toFinset)) = [l, r]
        ∨ (Partition.parsedList (c.entry (d+1))).dedup.filter
          (fun x => decide (x ∉ (Partition.parsedList (c.entry d)).toFinset)) = [r, l] := by
      rw [List.dedup_eq_self.2 hnd2, parsedList_toFinset]
      apply list_eq_pair (hnd2.filter _) hlr
      rw [filter_not_mem_toFinset, parsedList_toFinset]
      exact hdiffup
    have main : ∀ x y : PartSet,
        (Partition.parsedList (c.entry (d+1))).dedup.filter
          (fun q => decide (q ∉ (Partition.parsedList (c.entry d)).toFinset)) = [x, y] →
        x ∪ y = b → Disjoint x y → x ≠ ∅ → y ≠ ∅ →
        insert x (insert y ((c.entry d).partsSet.erase b)) = (c.entry (d+1)).partsSet →
        ∃ tail, buildSplits prev (Partition.parsedList (c.entry d))
            (Partition.parsedList (c.entry (d+1))
              :: (c.drop (d+1+1)).map Partition.parsedList) = some tail
          ∧ tail.length = m + 1
          ∧ ∀ k, k < m + 1 → PartsValid (Chain.entry tail k).parts n
              ∧ (Chain.entry tail k).partsSet = (c.entry (d+1+k)).partsSet := by
      intro x y hfxy hxyu hxyd hxe hye hins
      have hbparts : b ∈ prev.parts := by
        have hmem : b ∈ prev.partsSet := by
          rw [hps]
          exact hbmem
        exact List.mem_toFinset.1 hmem
      have hvalsp : PartsValid (Partition.split prev b x y).parts n :=
        PartsValid.split_parts hval hbparts hxe hye hxyd hxyu
      have hspset : (Partition.split prev b x y).partsSet = (c.entry (d+1)).partsSet := by
        rw [Partition.partsSet_split hval.1 hbparts, hps]
        exact hins
      rcases ih (d+1) (Partition.split prev b x y) hd1n (by omega) hvalsp hspset with
        ⟨tail', htail', hlen', hconj'⟩
      refine ⟨Partition.split prev b x y :: tail', ?_, ?_, ?_⟩
      · rw [buildSplits, hfB, hfxy]
        show (buildSplits (Partition.split prev b x y)
            (Partition.parsedList (c.entry (d+1)))
            ((c.drop (d+1+1)).map Partition.parsedList)).map
            (fun t => Partition.split prev b x y :: t) = _
        rw [htail']
        rfl
      · simp only [List.length_cons]
        omega
      · intro k hk
        cases k with
        | zero => exact ⟨hvalsp, hspset⟩
        | succ k' =>
          have h' := hconj' k' (by omega)
          rw [Chain.entry_cons_succ]
          have harith : d + 1 + (k' + 1) = d + 1 + 1 + k' := by omega
          rw [harith]
          exact h'
    rcases hfLR with hLR | hLR
    · refine main l r hLR hu hdisj hl hr hset.symm
    · refine main r l hLR ?_ hdisj.symm hr hl ?_
      · rw [Finset.union_comm]
        exact hu
      · rw [Finset.Insert.comm]
        exact hset.symm

/-! ### The round trip -/

/-- Mapping a partition-level function over two chains with pointwise-equal
images gives equal lists. -/
theorem map_entry_eq {α : Type} (f : Partition → α) :
    ∀ c c' : Chain, c.length = c'.length →
      (∀ k, k < c.length → f (c.entry k) = f (c'.entry k)) →
      c.map f = c'.map f := by
  intro c
  induction c with
  | nil =>
    intro c' hlen _
    cases c' with
    | nil => rfl
    | cons q t => simp at hlen
  | cons p rest ih =>
    intro c' hlen hall
    cases c' with
    | nil => simp at hlen
    | cons q rest' =>
      rw [List.map_cons, List.map_cons]
      congr 1
      · exact hall 0 (by simp)
      · apply ih rest' (by simpa using hlen)
        intro k hk
        have h' := hall (k+1) (by simp only [List.length_cons]; omega)
        rwa [Chain.entry_cons_succ, Chain.entry_cons_succ] at h'

/-- The rendering of a partition depends only on its set of parts (for
duplicate-free part lists): sorting makes it canonical. -/
theorem reprStr_congr {p q : Partition} (hp : p.parts.Nodup) (hq : q.parts.Nodup)
    (h : p.partsSet = q.partsSet) : p.reprStr = q.reprStr := by
  show joinSep [barChar] ((Partition.partitionKeys p).map Partition.renderPart)
    = joinSep [barChar] ((Partition.partitionKeys q).map Partition.renderPart)
  have hperm : List.Perm p.parts q.parts :=
    List.perm_of_nodup_nodup_toFinset_eq hp hq h
  have hkeys : Partition.partitionKeys p = Partition.partitionKeys q := by
    show List.insertionSort (fun x y => listLeB x y = true) (p.parts.map Partition.partKey)
      = List.insertionSort (fun x y => listLeB x y = true) (q.parts.map Partition.partKey)
    exact insSort_eq_of_perm (hperm.map _)
  rw [hkeys]

/-- Evaluation of `from_string` once the parse of the input is known to be a
first partition with a single part followed by further partitions. -/
theorem from_string_eval {s : List Char} {P0 : PartSet} {rest : List (List PartSet)}
    (hsplit : (splitOnSep arrowSep s).map (fun pstr =>
      (splitOnSep [barChar] pstr).map fun partStr =>
        ((splitOnSep [dotChar] partStr).map charsToNat).toFinset) = [P0] :: rest) :
    Chain.from_string s
      = (if P0.card ≤ ([P0] :: rest).length then
          match buildSplits (Partition.trivial P0.card) [P0] (rest.take (P0.card - 1)) with
          | none => none
          | some tail =>
              if Chain.reprStr (Partition.trivial P0.card :: tail) = s
              then some (Partition.trivial P0.card :: tail) else none
        else none) := by
  have h0 : Chain.from_string s = (match (splitOnSep arrowSep s).map (fun pstr =>
      (splitOnSep [barChar] pstr).map fun partStr =>
        ((splitOnSep [dotChar] partStr).map charsToNat).toFinset) with
    | [] => none
    | p0 :: restAll =>
      match p0 with
      | [] => none
      | part0 :: _ =>
        if part0.card ≤ (p0 :: restAll).length then
          match buildSplits (Partition.trivial part0.card) p0 (restAll.take (part0.card - 1)) with
          | none => none
          | some tail =>
              if Chain.reprStr (Partition.trivial part0.card :: tail) = s
              then some (Partition.trivial part0.card :: tail) else none
        else none) := rfl
  rw [hsplit] at h0
  exact h0

/-- C5: for every well-formed maximal chain `C`, parsing the canonical
rendering of `C` (parts sorted by their sorted element lists, `'.'` between
elements, `'|'` between parts, `' -> '` between partitions — `repr(C)`) with
`Chain.from_string` succeeds (in particular the internal
`assert repr(c) == s` holds) and yields a chain structurally equal to `C`,
of the same length, each entry of which carries exactly the part sets of the
corresponding entry of `C`. -/
theorem C5_canonical_round_trip (c : Chain) (n : ℕ) (hwf : c.WF n) :
    ∃ c', Chain.from_string c.reprStr = some c' ∧ chainEqB c' c = true ∧
      c'.length = c.length ∧
      ∀ k, k < n → (Chain.entry c' k).partsSet = (c.entry k).partsSet := by
  have hn := hwf.n_pos
  rcases c with _ | ⟨p0c, ctail⟩
  · exfalso
    have := hwf.length_eq
    simp at this
    omega
  have hp0 : p0c = Partition.trivial n := hwf.entry_zero
  subst hp0
  have hctail : ctail.length = n - 1 := by
    have := hwf.length_eq
    simp only [List.length_cons] at this
    omega
  have hp0parsed : Partition.parsedList (Partition.trivial n) = [Finset.Icc 1 n] := by
    show [(Finset.sort (· ≤ ·) (Finset.Icc 1 n)).toFinset] = [Finset.Icc 1 n]
    rw [Finset.sort_toFinset]
  have hsplit' : (splitOnSep arrowSep (Chain.reprStr (Partition.trivial n :: ctail))).map
      (fun pstr => (splitOnSep [barChar] pstr).map fun partStr =>
        ((splitOnSep [dotChar] partStr).map charsToNat).toFinset)
      = [Finset.Icc 1 n] :: ctail.map Partition.parsedList := by
    rw [parse_reprChain hwf, List.map_cons, hp0parsed]
  have hfrom := from_string_eval hsplit'
  have hcard : (Finset.Icc 1 n).card = n := by
    rw [Nat.card_Icc]
    omega
  rw [hcard] at hfrom
  have hlenO : n ≤ ([Finset.Icc 1 n] :: ctail.map Partition.parsedList).length := by
    simp only [List.length_cons, List.length_map]
    omega
  rw [if_pos hlenO] at hfrom
  have htake : (ctail.map Partition.parsedList).take (n-1) = ctail.map Partition.parsedList := by
    apply List.take_of_length_le
    simp only [List.length_map]
    omega
  rw [htake] at hfrom
  obtain ⟨tail, htail, hlen3, hconj⟩ := buildSplits_go hwf (n-1) 0 (Partition.trivial n)
    (by omega) (by omega)
    (show PartsValid (Partition.trivial n).parts n from hwf.partsValid (d := 0) (by omega)) rfl
  have htail' : buildSplits (Partition.trivial n) [Finset.Icc 1 n]
      (ctail.map Partition.parsedList) = some tail := by
    rw [← hp0parsed]
    exact htail
  rw [htail'] at hfrom
  have hfrom' : Chain.from_string (Chain.reprStr (Partition.trivial n :: ctail))
      = (if Chain.reprStr (Partition.trivial n :: tail)
            = Chain.reprStr (Partition.trivial n :: ctail)
        then some (Partition.trivial n :: tail) else none) := hfrom
  have hpoint : ∀ k, k < n → (Chain.entry (Partition.trivial n :: tail) k).partsSet
      = (Chain.entry (Partition.trivial n :: ctail) k).partsSet := by
    intro k hk
    cases k with
    | zero => rfl
    | succ k' =>
      have hcj := hconj k' (by omega)
      have harith : 0 + 1 + k' = k' + 1 := by omega
      rw [harith] at hcj
      rw [Chain.entry_cons_succ] at hcj
      rw [Chain.entry_cons_succ, Chain.entry_cons_succ]
      exact hcj.2
  have hvalpoint : ∀ k', k' + 1 < n → PartsValid (Chain.entry tail k').parts n := by
    intro k' hk'
    exact (hconj k' (by omega)).1
  have hassert : Chain.reprStr (Partition.trivial n :: tail)
      = Chain.reprStr (Partition.trivial n :: ctail) := by
    show joinSep arrowSep ((Partition.trivial n :: tail).map Partition.reprStr)
      = joinSep arrowSep ((Partition.trivial n :: ctail).map Partition.reprStr)
    congr 1
    apply map_entry_eq
    · simp only [List.length_cons]
      omega
    · intro k hk
      have hkn : k < n := by
        simp only [List.length_cons] at hk
        omega
      cases k with
      | zero => rfl
      | succ k' =>
        rw [Chain.entry_cons_succ, Chain.entry_cons_succ]
        have hcval : PartsValid (Chain.entry ctail k').parts n := by
          have h' := hwf.partsValid (d := k'+1) (by omega)
          rwa [Chain.entry_cons_succ] at h'
        apply reprStr_congr (hvalpoint k' hkn).1 hcval.1
        have h' := hpoint (k'+1) hkn
        rwa [Chain.entry_cons_succ, Chain.entry_cons_succ] at h'
  rw [if_pos hassert] at hfrom'
  refine ⟨Partition.trivial n :: tail, hfrom', ?_, ?_, hpoint⟩
  · apply Chain.chainEqB_of_partsSet
    · simp only [List.length_cons]
      omega
    · intro k hk
      apply hpoint
      simp only [List.length_cons] at hk
      omega
  · simp only [List.length_cons]
    omega

/-- C5 witness at a concrete input (the n = 3 chain `123 -> 1|23 -> 1|2|3`). -/
theorem C5_canonical_round_trip_witness :
    chainA3.WF 3 ∧ (∃ c', Chain.from_string chainA3.reprStr = some c' ∧
      chainEqB c' chainA3 = true ∧ c'.length = chainA3.length ∧
      ∀ k, k < 3 → (Chain.entry c' k).partsSet = (chainA3.entry k).partsSet) :=
  ⟨by decide, C5_canonical_round_trip chainA3 3 (by decide)⟩
